import Mathlib

/-!
# yf_patchkernel: scan-and-patch engine, rollback, version parser, version gate

A shallow embedding of `src/patch_kernel/yf_patchkernel.c`.

Conventions of the embedding

* Kernel memory is a word store `Nat → Nat`, indexed by word address (the C
  code only ever does arithmetic on `unsigned int *`, so every `ptr + n` moves
  by whole 32-bit words).  The null pointer is word address `0`.
* An address `ptr + n` is the sum of natural numbers.  On the 32-bit target the
  same sum is taken modulo `2^30` words (`addressWords`), so the two agree as
  long as the sum stays below `2^30`.  For a descriptor this is the condition
  `regionFits`: the scan region, which holds every address the scan forms, ends
  inside the address space.  The equations of a single scan are stated for the
  addresses as the embedding forms them; the theorems about several passes
  over the same memory (C3, C17) take `regionFits` as a hypothesis, since an
  offset that wraps around reaches a word in front of the scan cursor.
* `unsigned int` values are natural numbers.  The engine combines them with
  `&`, `|`, `==`, `<` only, none of which can overflow; the counters
  `patches_applied` and `patchCount` count descriptors of arrays that fit the
  address space and are not reduced modulo `2^32`.
* A descriptor array (`patchEntry_t[]`, closed by an entry with
  `fname == NULL`) is the `List patchEntry` of its entries before the end
  marker; a pointer into such an array is the list of entries from the pointer
  to the end marker, so `patch++` is the tail and `patch->fname == NULL` is the
  empty list.
* The table of patch lists (`patchList_t[]`, closed by an entry with
  `patches == NULL`) is the `List patchList` of its entries before the end
  marker.
-/

namespace YfPatchkernel

/-! ## Data model -/

/-- The `patchEntry_t` structure (`fname` of a real entry is not NULL). The C
`int isPatched` is only ever assigned 0 or 1 and tested for being non-zero. -/
structure patchEntry where
  fname : String
  startAddress : Nat
  startOffset : Nat
  maxOffset : Nat
  lookFor : Nat
  andMask : Nat
  orMask : Nat
  verifyOffset : Nat
  verifyValue : Nat
  verifyAndMask : Nat
  verifyOrMask : Nat
  patchOffset : Nat
  patchValue : Nat
  patchAddress : Nat
  originalValue : Nat
  isPatched : Bool
  deriving DecidableEq, Repr

/-- The `patchList_t` structure (`patches` of a real entry is not NULL). -/
structure patchList where
  majorMin : Nat
  minorMin : Nat
  revisionMin : Nat
  majorMax : Nat
  minorMax : Nat
  revisionMax : Nat
  patchName : String
  patches : List patchEntry
  deriving DecidableEq, Repr

/-- The word store the engine reads and writes through `unsigned int *`. -/
abbrev Memory := Nat → Nat

/-- Which exit the scan of one descriptor took; each one is announced by its own
log line in `yf_patchkernel_run_patch`: "Unable to locate kernel symbol"
(`notFound`), "Found patched instruction" (`alreadyApplied`), "Found
instruction to patch" (`applied`); `noMatch` is the `for` loop running out of
offsets. -/
inductive Outcome where
  | notFound
  | alreadyApplied
  | applied
  | noMatch
  deriving DecidableEq, Repr

/-- State after the scan of one descriptor. -/
structure EntryResult where
  mem : Memory
  patch : patchEntry
  patches_applied : Nat
  outcome : Outcome

/-- State after `yf_patchkernel_run_patch`: memory, the descriptor array, the
returned counter, and the outcome of every descriptor in array order. -/
structure RunResult where
  mem : Memory
  patches : List patchEntry
  patches_applied : Nat
  log : List Outcome

/-! ## Scan-and-patch engine (`yf_patchkernel_run_patch`) -/

/-- The match check of line 308/317: `((*ptr & andMask) | orMask) == lookFor`. -/
def matchCheck (patch : patchEntry) (word : Nat) : Bool :=
  ((word &&& patch.andMask) ||| patch.orMask) == patch.lookFor

/-- The verify check of line 321/322 on the word at `ptr + verifyOffset`. -/
def verifyCheck (patch : patchEntry) (word : Nat) : Bool :=
  ((word &&& patch.verifyAndMask) ||| patch.verifyOrMask) == patch.verifyValue

/-- The `for` loop of lines 306-335. The first argument is the number of
offsets still to try (`maxOffset - offset`), the second is `ptr`. The addresses
`ptr + patchOffset` and `ptr + verifyOffset` are sums of natural numbers: they
are the addresses the 32-bit target forms as long as they stay below `2^30`
(see `regionFits`). -/
def forLoop (patch : patchEntry) (mem : Memory) (patches_applied : Nat) :
    Nat → Nat → EntryResult
  | 0, _ => ⟨mem, patch, patches_applied, Outcome.noMatch⟩
  | n + 1, ptr =>
    let orgValue := mem (ptr + patch.patchOffset)
    if orgValue = patch.patchValue then
      ⟨mem, patch, patches_applied, Outcome.alreadyApplied⟩
    else if matchCheck patch (mem ptr) then
      if patch.verifyOffset ≠ 0 ∧ ¬ verifyCheck patch (mem (ptr + patch.verifyOffset)) then
        forLoop patch mem patches_applied n (ptr + 1)
      else
        ⟨Function.update mem (ptr + patch.patchOffset) patch.patchValue,
          { patch with
            patchAddress := ptr + patch.patchOffset
            originalValue := mem (ptr + patch.patchOffset)
            isPatched := true },
          patches_applied + 1, Outcome.applied⟩
    else
      forLoop patch mem patches_applied n (ptr + 1)

/-- The body of the `while (patch->fname)` loop (lines 296-341) for one
descriptor: symbol lookup, then the scan. `kallsyms_lookup_name` returns the
word address of the symbol, `0` when it is unknown. -/
def scanEntry (kallsyms_lookup_name : String → Nat) (mem : Memory) (patch : patchEntry)
    (patches_applied : Nat) : EntryResult :=
  let ptr := kallsyms_lookup_name patch.fname
  if ptr = 0 then
    ⟨mem, patch, patches_applied, Outcome.notFound⟩
  else
    forLoop { patch with startAddress := ptr } mem patches_applied patch.maxOffset
      (ptr + patch.startOffset)

/-- The `while (patch->fname)` loop of lines 294-343. -/
def whileLoop (kallsyms_lookup_name : String → Nat) :
    List patchEntry → Memory → Nat → RunResult
  | [], mem, patches_applied => ⟨mem, [], patches_applied, []⟩
  | patch :: rest, mem, patches_applied =>
    let r := scanEntry kallsyms_lookup_name mem patch patches_applied
    let t := whileLoop kallsyms_lookup_name rest r.mem r.patches_applied
    ⟨t.mem, r.patch :: t.patches, t.patches_applied, r.outcome :: t.log⟩

/-- The function `yf_patchkernel_run_patch` (lines 283-346): the local counter
starts at 0 and is returned. -/
def yf_patchkernel_run_patch (kallsyms_lookup_name : String → Nat) (mem : Memory)
    (patches : List patchEntry) : RunResult :=
  whileLoop kallsyms_lookup_name patches mem 0

/-- The scan cursor of a descriptor: `base + searchStart`. -/
def cursor (kallsyms_lookup_name : String → Nat) (patch : patchEntry) : Nat :=
  kallsyms_lookup_name patch.fname + patch.startOffset

/-- Offset `k` passes the match check and, when `verifyOffset != 0`, the verify
check. -/
def fullMatch (patch : patchEntry) (mem : Memory) (c k : Nat) : Bool :=
  matchCheck patch (mem (c + k)) &&
    (patch.verifyOffset == 0 || verifyCheck patch (mem (c + k + patch.verifyOffset)))

/-- The short-circuit check at offset `j`: the patch target already holds the
replacement value. -/
def shortCircuit (patch : patchEntry) (mem : Memory) (c j : Nat) : Bool :=
  mem (c + j + patch.patchOffset) == patch.patchValue

/-! ## Rollback engine (`yf_patchkernel_restore`) -/

/-- The inner loop `while (patch->fname)` of lines 352-363, started with `patch`
at the head of the given array: every entry with `isPatched` set gets its
`originalValue` written back to `patchAddress` and the flag cleared. Returns
the memory and the walked entries. -/
def restoreWalk : List patchEntry → Memory → Memory × List patchEntry
  | [], mem => (mem, [])
  | patch :: rest, mem =>
    if patch.isPatched then
      let t := restoreWalk rest (Function.update mem patch.patchAddress patch.originalValue)
      (t.1, { patch with isPatched := false } :: t.2)
    else
      let t := restoreWalk rest mem
      (t.1, patch :: t.2)

/-- The outer loop `while (list->patches)` of lines 350-365. The body never
assigns `patch` from `list->patches`: after the first pass `patch` rests on the
end marker of the array it walked, so the inner loop of every later pass ends
at once. `walked` collects the entries `patch` has passed. -/
def restoreLoop : List patchList → Memory → List patchEntry → List patchEntry →
    Memory × List patchEntry
  | [], mem, walked, patch => (mem, walked ++ patch)
  | _ :: list, mem, walked, patch =>
    let t := restoreWalk patch mem
    restoreLoop list t.1 (walked ++ t.2) []

/-- The function `yf_patchkernel_restore` (lines 348-366). The variable `patch`
it walks is declared nowhere in the function and never set from `list`; it is
taken as a parameter: the descriptor array it points into, from its position to
the end marker. The result is the memory and that array after the call; the
table itself is only read (`list->patches` in the loop condition). -/
def yf_patchkernel_restore (list : List patchList) (patch : List patchEntry) (mem : Memory) :
    Memory × List patchEntry :=
  restoreLoop list mem [] patch

/-! ## Version parser (`yf_patchkernel_parse_firmwarestring`) -/

/-- The four out-parameters `*major`, `*minor`, `*revision`, `*dirty`. -/
structure VersionOut where
  major : Nat
  minor : Nat
  revision : Nat
  dirty : Nat
  deriving DecidableEq, Repr

/-- Modelled from the spec: `kstrtouint(conv, 10, &value)` is a kernel library
routine, not part of this repository. A field converts when it is a non-empty
run of decimal digits only (no sign, no whitespace) whose value fits an
`unsigned int`; `none` stands for a non-zero return code. -/
def kstrtouint (conv : List Char) : Option Nat :=
  if conv ≠ [] ∧ conv.all Char.isDigit then
    let value := conv.foldl (fun acc c => 10 * acc + (c.toNat - 48)) 0
    if value < 2 ^ 32 then some value else none
  else none

/-- Line 403: `delim = (state == 3 ? '-' : (state == 4 ? 'M' : '.'))`. -/
def delimOf (state : Nat) : Char :=
  if state = 3 then '-' else if state = 4 then 'M' else '.'

/-- The loop `while (*ptr && state < 5)` of lines 399-451 together with the two
closing lines `if (*ptr) return 0; return 1;`. The first argument is
`5 - state`: every pass that stays in the loop increments `state`. `ptr` is the
text from the pointer to the terminating NUL. -/
def parseLoop : Nat → List Char → VersionOut → Bool × VersionOut
  | 0, ptr, out => (ptr.isEmpty, out)
  | left + 1, ptr, out =>
    if ptr = [] then (true, out)
    else
      let state := 4 - left
      let delim := delimOf state
      let conv := ptr.takeWhile (fun c => c ≠ delim)
      match ptr.dropWhile (fun c => c ≠ delim) with
      | [] =>
        let out := { out with dirty := 0 }
        if state < 3 then (false, out)
        else if state < 4 then (true, { out with revision := 0 })
        else (true, out)
      | d :: rest =>
        if state < 4 then
          match kstrtouint conv with
          | some value =>
            if state = 1 then parseLoop left rest { out with major := value }
            else if state = 2 then parseLoop left rest { out with minor := value }
            else if state = 3 then parseLoop left rest { out with revision := value }
            else (false, out)
          | none => (false, out)
        else
          parseLoop left (d :: rest) { out with dirty := 1 }

/-- The function `yf_patchkernel_parse_firmwarestring` (lines 368-455).
`avm_kernel_version_info` is `none` for the NULL pointer, otherwise the C string
held by `firmwarestring` (its characters before the terminating NUL).
`fwSize` is `sizeof(avm_kernel_version_info->firmwarestring)`, declared in a
header outside the repository. `out` holds the contents of the four
out-parameters before the call. The result is the return value (`true` for 1)
and the out-parameters after the call. -/
def yf_patchkernel_parse_firmwarestring (fwSize : Nat)
    (avm_kernel_version_info : Option (List Char)) (out : VersionOut) : Bool × VersionOut :=
  match avm_kernel_version_info with
  | none => (false, out)
  | some firmwarestring =>
    if firmwarestring.length = 0 then (false, out)
    else if ¬ firmwarestring.length < fwSize then (false, out)
    else parseLoop 4 firmwarestring out

/-! ## Version gate and apply orchestration (`yf_patchkernel_patch`) -/

/-- Lines 476-484: `false` when one of the `continue` statements of the
lower-limit block is taken. -/
def lowerLimitAccepts (list : patchList) (major minor revision : Nat) : Bool :=
  if list.majorMin ≠ 0 ∨ list.minorMin ≠ 0 ∨ list.revisionMin ≠ 0 then
    if major < list.majorMin then false
    else if major = list.majorMin then
      if minor < list.minorMin then false
      else if minor = list.minorMin ∧ list.revisionMin ≠ 0 ∧ revision < list.revisionMin then
        false
      else true
    else true
  else true

/-- Lines 488-496: `false` when one of the `continue` statements of the
upper-limit block is taken. -/
def upperLimitAccepts (list : patchList) (major minor revision : Nat) : Bool :=
  if list.majorMax ≠ 0 ∨ list.minorMax ≠ 0 ∨ list.revisionMax ≠ 0 then
    if major > list.majorMax then false
    else if major = list.majorMax then
      if minor > list.minorMax then false
      else if minor = list.minorMax ∧ list.revisionMax ≠ 0 ∧ revision > list.revisionMax then
        false
      else true
    else true
  else true

/-- The version check of lines 476-498: the list is applied when neither block
takes a `continue`. -/
def versionCheck (list : patchList) (major minor revision : Nat) : Bool :=
  lowerLimitAccepts list major minor revision && upperLimitAccepts list major minor revision

/-- State at the end of `yf_patchkernel_patch`: memory, the table, and the local
`patchCount` (`none` when it was never assigned). The function has no `return`
statement. -/
structure PatchResult where
  mem : Memory
  table : List patchList
  patchCount : Option Nat

/-- The loop `while (*next->patches)` of lines 472-503. Pointers into the table
are indices; `list` is the parameter of `yf_patchkernel_patch` and is assigned
nowhere in the loop, `next` is set to `list + 1` at the top of every pass. The
loop condition is read as "`next` is not the end marker". The first argument
bounds the number of passes; `none` means the bound was reached (or the pass
read past the end marker). -/
def listLoop (kallsyms_lookup_name : String → Nat) (major minor revision : Nat) (list : Nat) :
    Nat → Nat → Memory → List patchList → Nat → Option PatchResult
  | 0, _, _, _, _ => none
  | fuel + 1, next, mem, table, patchCount =>
    if next < table.length then
      match table.get? list with
      | none => none
      | some l =>
        if versionCheck l major minor revision then
          let r := yf_patchkernel_run_patch kallsyms_lookup_name mem l.patches
          listLoop kallsyms_lookup_name major minor revision list fuel (list + 1) r.mem
            (table.set list { l with patches := r.patches }) (patchCount + r.patches_applied)
        else
          listLoop kallsyms_lookup_name major minor revision list fuel (list + 1) mem table
            patchCount
    else some ⟨mem, table, some patchCount⟩

/-- The function `yf_patchkernel_patch` (lines 457-509), called with `list` at
the start of `table`. `out` holds the indeterminate contents of the locals
`major`, `minor`, `revision`, `dirty` before the parser call. -/
def yf_patchkernel_patch (kallsyms_lookup_name : String → Nat) (fwSize : Nat)
    (avm_kernel_version_info : Option (List Char)) (out : VersionOut) (fuel : Nat)
    (mem : Memory) (table : List patchList) : Option PatchResult :=
  let r := yf_patchkernel_parse_firmwarestring fwSize avm_kernel_version_info out
  if r.1 then
    listLoop kallsyms_lookup_name r.2.major r.2.minor r.2.revision 0 fuel 0 mem table 0
  else
    some ⟨mem, table, none⟩

/-! ## The built-in tables -/

/-- The macro `MIPS_NOP`: `sll zero, zero, 0`. -/
def MIPS_NOP : Nat := 0x00000000

/-- The macro `MIPS_ADDIU`. -/
def MIPS_ADDIU : Nat := 0x24000000

/-- The macro `MIPS_LW`. -/
def MIPS_LW : Nat := 0x8C000000

/-- The macro `MIPS_TNE`. -/
def MIPS_TNE : Nat := 0x00000036

/-- The macro `MIPS_RT_MASK`: the RT register bits (bits 16 to 20). -/
def MIPS_RT_MASK : Nat := 0x001F0000

/-- The macro `MIPS_BASE_SHFT`. -/
def MIPS_BASE_SHFT : Nat := 21

/-- The macro `MIPS_RT_SHFT`. -/
def MIPS_RT_SHFT : Nat := 16

/-- The macro `MIPS_REG_V0`. -/
def MIPS_REG_V0 : Nat := 2

/-- The macro `MIPS_REG_A0`. -/
def MIPS_REG_A0 : Nat := 4

/-- The macro `MIPS_TRAP_CODE`: trap code 12 in bits 6 to 15. -/
def MIPS_TRAP_CODE : Nat := 0x00000300

/-- The macro `MIPS_AND_MASK`. -/
def MIPS_AND_MASK : Nat := 0xFFFFFFFF

/-- The array `patchesForTunDevice_pre0708`; `sk` is `offsetof(struct sk_buff, sk)`,
which comes from a kernel header. -/
def patchesForTunDevice_pre0708 (sk : Nat) : List patchEntry :=
  [ { fname := "ip_forward", startAddress := 0, startOffset := 0, maxOffset := 10,
      lookFor := MIPS_LW + (MIPS_REG_A0 <<< MIPS_BASE_SHFT) + sk,
      andMask := MIPS_AND_MASK - MIPS_RT_MASK, orMask := 0,
      verifyOffset := 0, verifyValue := 0, verifyAndMask := 0, verifyOrMask := 0,
      patchOffset := 0, patchValue := MIPS_ADDIU + (MIPS_REG_V0 <<< MIPS_RT_SHFT),
      patchAddress := 0, originalValue := 0, isPatched := false },
    { fname := "netif_receive_skb", startAddress := 0, startOffset := 0, maxOffset := 10,
      lookFor := MIPS_LW + (MIPS_REG_A0 <<< MIPS_BASE_SHFT) + sk,
      andMask := MIPS_AND_MASK - MIPS_RT_MASK, orMask := 0,
      verifyOffset := 1, verifyValue := MIPS_TNE + MIPS_TRAP_CODE,
      verifyAndMask := MIPS_AND_MASK - MIPS_RT_MASK, verifyOrMask := 0,
      patchOffset := 1, patchValue := MIPS_NOP,
      patchAddress := 0, originalValue := 0, isPatched := false },
    { fname := "__netif_receive_skb", startAddress := 0, startOffset := 0, maxOffset := 8,
      lookFor := MIPS_LW + (MIPS_REG_A0 <<< MIPS_BASE_SHFT) + sk,
      andMask := MIPS_AND_MASK - MIPS_RT_MASK, orMask := 0,
      verifyOffset := 1, verifyValue := MIPS_TNE + MIPS_TRAP_CODE,
      verifyAndMask := MIPS_AND_MASK - MIPS_RT_MASK, verifyOrMask := 0,
      patchOffset := 1, patchValue := MIPS_NOP,
      patchAddress := 0, originalValue := 0, isPatched := false } ]

/-- The array `patchesForTunDevice_0708`. -/
def patchesForTunDevice_0708 (sk : Nat) : List patchEntry :=
  [ { fname := "ip_forward", startAddress := 0, startOffset := 0, maxOffset := 12,
      lookFor := MIPS_LW + (MIPS_REG_A0 <<< MIPS_BASE_SHFT) + sk,
      andMask := MIPS_AND_MASK - MIPS_RT_MASK, orMask := 0,
      verifyOffset := 0, verifyValue := 0, verifyAndMask := 0, verifyOrMask := 0,
      patchOffset := 0, patchValue := MIPS_ADDIU + (MIPS_REG_V0 <<< MIPS_RT_SHFT),
      patchAddress := 0, originalValue := 0, isPatched := false },
    { fname := "ip6_forward", startAddress := 0, startOffset := 15, maxOffset := 10,
      lookFor := MIPS_LW + (MIPS_REG_A0 <<< MIPS_BASE_SHFT) + sk,
      andMask := MIPS_AND_MASK - MIPS_RT_MASK, orMask := 0,
      verifyOffset := 0, verifyValue := 0, verifyAndMask := 0, verifyOrMask := 0,
      patchOffset := 0, patchValue := MIPS_ADDIU + (MIPS_REG_V0 <<< MIPS_RT_SHFT),
      patchAddress := 0, originalValue := 0, isPatched := false } ]

/-- The table `entries` (lines 255-279). -/
def entries (sk : Nat) : List patchList :=
  [ { majorMin := 7, minorMin := 8, revisionMin := 0,
      majorMax := 0, minorMax := 0, revisionMax := 0,
      patchName := "patches for TUN device since FRITZ!OS 07.08",
      patches := patchesForTunDevice_0708 sk },
    { majorMin := 6, minorMin := 98, revisionMin := 0,
      majorMax := 7, minorMax := 8, revisionMax := 0,
      patchName := "patches for TUN device from FRITZ!OS 06.98 to FRITZ!OS 07.08",
      patches := patchesForTunDevice_pre0708 sk } ]

/-! ## Scenario C data -/

/-- Scenario C: a symbol table that knows `ip_forward` at word address 1000. -/
def scenarioC_syms : String → Nat :=
  fun s => if s = "ip_forward" then 1000 else 0

/-- Scenario C: the word at offset 3 of the function is `0x8C04001C`. -/
def scenarioC_mem : Memory :=
  fun a => if a = 1003 then 0x8C04001C else 0x00000011

/-- Scenario C: `matchMask = 0xFFFF0000`, `matchBits = 0x8C040000`, no verify
step, patch target two words after the match. -/
def scenarioC_patch : patchEntry where
  fname := "ip_forward"
  startAddress := 0
  startOffset := 0
  maxOffset := 10
  lookFor := 0x8C040000
  andMask := 0xFFFF0000
  orMask := 0
  verifyOffset := 0
  verifyValue := 0
  verifyAndMask := 0
  verifyOrMask := 0
  patchOffset := 2
  patchValue := 0x24020000
  patchAddress := 0
  originalValue := 0
  isPatched := false

/-! ## Definitions that follow the wording of the specification -/

/-- The lower-bound rule in the words of the specification (section 4.2):
`v` satisfies `L` if `v.major > L.major`, or `v.major == L.major` and
(`L.minor == 0` or `v.minor > L.minor` or (`v.minor == L.minor` and
(`L.revision == 0` or `v.revision >= L.revision`))). -/
def spec_satisfiesLowerBound (list : patchList) (major minor revision : Nat) : Bool :=
  decide (major > list.majorMin ∨
    (major = list.majorMin ∧
      (list.minorMin = 0 ∨ minor > list.minorMin ∨
        (minor = list.minorMin ∧ (list.revisionMin = 0 ∨ revision ≥ list.revisionMin)))))

/-- A lower bound with minor 0 and revision 5. -/
def lowerBound_7_0_5 : patchList where
  majorMin := 7
  minorMin := 0
  revisionMin := 5
  majorMax := 0
  minorMax := 0
  revisionMax := 0
  patchName := "lower bound 7.0-5"
  patches := []

/-- A list with `minVersion = (7,8,0)` and an all-zero `maxVersion` (Scenario A),
holding the Scenario C descriptor. -/
def scenarioA_list : patchList where
  majorMin := 7
  minorMin := 8
  revisionMin := 0
  majorMax := 0
  minorMax := 0
  revisionMax := 0
  patchName := "since 7.8"
  patches := [scenarioC_patch]

/-! ## Two descriptors that target the same word -/

/-- A symbol table that knows `f` at word address 100. -/
def sameWord_syms : String → Nat :=
  fun s => if s = "f" then 100 else 0

/-- A memory image whose word at address 100 is 1. -/
def sameWord_mem : Memory :=
  fun a => if a = 100 then 1 else 0

/-- A descriptor for `f` that accepts any word at offset 0 and replaces it by
`value`. -/
def sameWord_patch (value : Nat) : patchEntry where
  fname := "f"
  startAddress := 0
  startOffset := 0
  maxOffset := 1
  lookFor := 0
  andMask := 0
  orMask := 0
  verifyOffset := 0
  verifyValue := 0
  verifyAndMask := 0
  verifyOrMask := 0
  patchOffset := 0
  patchValue := value
  patchAddress := 0
  originalValue := 0
  isPatched := false

/-- A descriptor for `f` that looks at offset 0 for exactly the word `look` and
replaces it by `value`. -/
def chain_patch (look value : Nat) : patchEntry where
  fname := "f"
  startAddress := 0
  startOffset := 0
  maxOffset := 1
  lookFor := look
  andMask := 0xFFFFFFFF
  orMask := 0
  verifyOffset := 0
  verifyValue := 0
  verifyAndMask := 0
  verifyOrMask := 0
  patchOffset := 0
  patchValue := value
  patchAddress := 0
  originalValue := 0
  isPatched := false

/-- A patch list around the two descriptors. -/
def sameWord_list : patchList where
  majorMin := 0
  minorMin := 0
  revisionMin := 0
  majorMax := 0
  minorMax := 0
  revisionMax := 0
  patchName := "two patches of one word"
  patches := [sameWord_patch 2, sameWord_patch 3]

/-! ## Notions used to state idempotence of the apply pass -/

/-- What a second scan reports for a descriptor, given what the first scan
reported: a patch that was applied is found as already applied, every other
outcome repeats. -/
def repeatOutcome : Outcome → Outcome
  | Outcome.applied => Outcome.alreadyApplied
  | o => o

/-- One past the last word a scan of the descriptor can touch: the scan reads
`cursor + j`, `cursor + j + patchOffset` and `cursor + j + verifyOffset` for
`j < maxOffset` and writes `cursor + j + patchOffset`. -/
def regionEnd (kallsyms_lookup_name : String → Nat) (patch : patchEntry) : Nat :=
  cursor kallsyms_lookup_name patch + patch.maxOffset + max patch.patchOffset patch.verifyOffset

/-- Number of 32-bit words in the address space of the 32-bit target: word
addresses are below `2^30`, and the pointer arithmetic of the code is arithmetic
modulo this number. -/
def addressWords : Nat := 2 ^ 30

/-- The scan region of the descriptor lies inside the address space: none of
the sums `cursor + j + patchOffset`, `cursor + j + verifyOffset` the scan forms
wraps around, so the natural-number addresses of the embedding are the machine
addresses (a descriptor whose symbol does not resolve has no region). -/
def regionFits (kallsyms_lookup_name : String → Nat) (patch : patchEntry) : Bool :=
  kallsyms_lookup_name patch.fname == 0 ||
    decide (regionEnd kallsyms_lookup_name patch ≤ addressWords)

/-- The scan regions `cursor .. regionEnd - 1` of two descriptors lie inside the
address space and do not overlap (a descriptor whose symbol does not resolve
has no region). -/
def disjointRegions (kallsyms_lookup_name : String → Nat) (p q : patchEntry) : Bool :=
  kallsyms_lookup_name p.fname == 0 || kallsyms_lookup_name q.fname == 0 ||
    (decide (regionEnd kallsyms_lookup_name p ≤ addressWords) &&
      decide (regionEnd kallsyms_lookup_name q ≤ addressWords) &&
      (decide (regionEnd kallsyms_lookup_name p ≤ cursor kallsyms_lookup_name q) ||
        decide (regionEnd kallsyms_lookup_name q ≤ cursor kallsyms_lookup_name p)))

/-- A descriptor for `f` (see `sameWord_syms`) whose verify word lies behind
its patch target: any word matches, the word two places on must be `0x99`, the
word one place on is replaced by `0x99`. -/
def reapply_patch : patchEntry where
  fname := "f"
  startAddress := 0
  startOffset := 0
  maxOffset := 2
  lookFor := 0
  andMask := 0
  orMask := 0
  verifyOffset := 2
  verifyValue := 0x99
  verifyAndMask := 0xFFFFFFFF
  verifyOrMask := 0
  patchOffset := 1
  patchValue := 0x99
  patchAddress := 0
  originalValue := 0
  isPatched := false

/-- A memory image with the words 1, 2, 3, `0x99` at addresses 100 to 103. -/
def reapply_mem : Memory :=
  fun a => if a = 100 then 1 else if a = 101 then 2 else if a = 102 then 3
    else if a = 103 then 0x99 else 0

/-- A symbol table for the three functions of `patchesForTunDevice_pre0708`. -/
def tun_syms : String → Nat :=
  fun s => if s = "ip_forward" then 1000 else if s = "netif_receive_skb" then 2000
    else if s = "__netif_receive_skb" then 3000 else 0

/-- A memory image in which `ip_forward` has the searched `lw` at offset 2 and
`netif_receive_skb` has it at offset 3, followed by the trap instruction. -/
def tun_mem : Memory :=
  fun a => if a = 1002 ∨ a = 2003 then 0x8C820010 else if a = 2004 then 0x00020336
    else 0x03E00008

/-- The function `yf_patchkernel_run_patch` run a second time, on the memory
and the descriptor array the first run left. -/
def secondPass (kallsyms_lookup_name : String → Nat) (mem : Memory)
    (patches : List patchEntry) : RunResult :=
  yf_patchkernel_run_patch kallsyms_lookup_name
    (yf_patchkernel_run_patch kallsyms_lookup_name mem patches).mem
    (yf_patchkernel_run_patch kallsyms_lookup_name mem patches).patches

/-! ## Masks: the comparison in the words of the specification -/

/-- The mask comparison in the words of the specification (section 3):
`(word & mask) == bits`. -/
def spec_maskMatch (mask bits word : Nat) : Bool :=
  (word &&& mask) == bits

/-- A descriptor that uses its OR mask: the low byte of the word is compared
after bit 8 has been set. It verifies the next word the same way. -/
def orMask_patch : patchEntry where
  fname := "f"
  startAddress := 0
  startOffset := 0
  maxOffset := 1
  lookFor := 0x1AB
  andMask := 0xFF
  orMask := 0x100
  verifyOffset := 1
  verifyValue := 0x1CD
  verifyAndMask := 0xFF
  verifyOrMask := 0x100
  patchOffset := 0
  patchValue := 0
  patchAddress := 0
  originalValue := 0
  isPatched := false

/-! ## The built-in table after both of its lists have been applied -/

/-- State after `yf_patchkernel_run_patch` over `patchesForTunDevice_0708`,
started on `tun_mem`. -/
def tun_after_0708 : RunResult :=
  yf_patchkernel_run_patch tun_syms tun_mem (patchesForTunDevice_0708 16)

/-- State after a further `yf_patchkernel_run_patch` over
`patchesForTunDevice_pre0708`. -/
def tun_after_both : RunResult :=
  yf_patchkernel_run_patch tun_syms tun_after_0708.mem (patchesForTunDevice_pre0708 16)

/-! ## A word that both matches and already holds the replacement -/

/-- A descriptor for `f` (see `sameWord_syms`) that looks for any word with the
top byte `0x24` and replaces it by `0x24020000`, a word of that very kind. -/
def precedence_patch : patchEntry where
  fname := "f"
  startAddress := 0
  startOffset := 0
  maxOffset := 4
  lookFor := 0x24000000
  andMask := 0xFF000000
  orMask := 0
  verifyOffset := 0
  verifyValue := 0
  verifyAndMask := 0
  verifyOrMask := 0
  patchOffset := 0
  patchValue := 0x24020000
  patchAddress := 0
  originalValue := 0
  isPatched := false

/-- A memory image that holds `0x24020000` at address 102 and 0 elsewhere. -/
def precedence_mem : Memory :=
  fun a => if a = 102 then 0x24020000 else 0

/-- A list with `minVersion = (7,8,5)` and an all-zero `maxVersion`, holding the
Scenario C descriptor. -/
def revisionGate_list : patchList where
  majorMin := 7
  minorMin := 8
  revisionMin := 5
  majorMax := 0
  minorMax := 0
  revisionMax := 0
  patchName := "since 7.8-5"
  patches := [scenarioC_patch]

/-! ## A verify word behind the scan window -/

/-- The state the passes work on: the memory image and the table of patch
lists with their descriptors. -/
structure EngineState where
  mem : Memory
  table : List patchList

/-- One pass: `yf_patchkernel_run_patch` over the descriptor array of list `i`
of the table, or `yf_patchkernel_restore` with `patch` at the start of that
array. -/
inductive Pass where
  | apply (i : Nat)
  | restore (i : Nat)
  deriving DecidableEq, Repr

/-- The effect of one pass on the state (a pass on a list the table does not
have changes nothing). -/
def runPass (kallsyms_lookup_name : String → Nat) : Pass → EngineState → EngineState
  | Pass.apply i, st =>
    match st.table.get? i with
    | none => st
    | some l =>
      let r := yf_patchkernel_run_patch kallsyms_lookup_name st.mem l.patches
      ⟨r.mem, st.table.set i { l with patches := r.patches }⟩
  | Pass.restore i, st =>
    match st.table.get? i with
    | none => st
    | some l =>
      let r := yf_patchkernel_restore st.table l.patches st.mem
      ⟨r.1, st.table.set i { l with patches := r.2 }⟩

/-- A sequence of passes, run in order. -/
def runPasses (kallsyms_lookup_name : String → Nat) : List Pass → EngineState → EngineState
  | [], st => st
  | pass :: rest, st =>
    runPasses kallsyms_lookup_name rest (runPass kallsyms_lookup_name pass st)

/-- All descriptors of a table, list after list. -/
def allPatches : List patchList → List patchEntry
  | [] => []
  | l :: rest => l.patches ++ allPatches rest

/-- Address `a` lies in the scan region of the descriptor (see `regionEnd`). -/
def inRegion (kallsyms_lookup_name : String → Nat) (patch : patchEntry) (a : Nat) : Prop :=
  kallsyms_lookup_name patch.fname ≠ 0 ∧ cursor kallsyms_lookup_name patch ≤ a ∧
    a < regionEnd kallsyms_lookup_name patch

/-- The invariant of one descriptor: when it is marked applied, its
`patchAddress` lies in its scan region and holds `patchValue`. -/
def Sound (kallsyms_lookup_name : String → Nat) (mem : Memory) (patch : patchEntry) : Prop :=
  patch.isPatched = true →
    inRegion kallsyms_lookup_name patch patch.patchAddress ∧
      mem patch.patchAddress = patch.patchValue

/-- The descriptor with its four result fields blanked: what the engine never
writes. -/
def staticPart (patch : patchEntry) : patchEntry :=
  { patch with startAddress := 0, patchAddress := 0, originalValue := 0, isPatched := false }

/-- Two descriptors that cannot break each other's invariant: their scan
regions lie inside the address space and do not overlap, or both write the same
replacement value. -/
def compatible (kallsyms_lookup_name : String → Nat) (p q : patchEntry) : Bool :=
  disjointRegions kallsyms_lookup_name p q || p.patchValue == q.patchValue

/-- Two descriptors are not both marked applied at one and the same address. -/
def distinctTargets (p q : patchEntry) : Prop :=
  p.isPatched = true → q.isPatched = true → p.patchAddress ≠ q.patchAddress

/-- The invariant of the descriptors of a table under apply and restore passes:
any two descriptors are compatible, every scan region lies inside the address
space, every descriptor is sound, and no two descriptors are marked applied at
the same address. -/
def PoolInv (kallsyms_lookup_name : String → Nat) (mem : Memory) (pool : List patchEntry) :
    Prop :=
  pool.Pairwise (fun p q => compatible kallsyms_lookup_name p q = true) ∧
    (∀ d ∈ pool, regionFits kallsyms_lookup_name d = true) ∧
    (∀ d ∈ pool, Sound kallsyms_lookup_name mem d) ∧
    pool.Pairwise distinctTargets

/-- A sequence of passes over the two lists of the built-in table: apply the
list "since FRITZ!OS 07.08", apply the list "from FRITZ!OS 06.98 to FRITZ!OS
07.08", restore the first, apply the second again, apply the first again. -/
def tun_passes : List Pass :=
  [Pass.apply 0, Pass.apply 1, Pass.restore 0, Pass.apply 1, Pass.apply 0]

/-! ## Theorems: scan of one descriptor -/

theorem fullMatch_succ (q : patchEntry) (mem : Memory) (ptr j : Nat) :
    fullMatch q mem (ptr + 1) j = fullMatch q mem ptr (j + 1) := by
  simp only [fullMatch]
  rw [show ptr + 1 + j = ptr + (j + 1) by omega]

theorem shortCircuit_succ (q : patchEntry) (mem : Memory) (ptr j : Nat) :
    shortCircuit q mem (ptr + 1) j = shortCircuit q mem ptr (j + 1) := by
  simp only [shortCircuit]
  rw [show ptr + 1 + j = ptr + (j + 1) by omega]

/-- One pass of the loop body that neither short-circuits nor fully matches
moves on to the next offset. -/
theorem forLoop_skip (q : patchEntry) (mem : Memory) (cnt n ptr : Nat)
    (hsc : shortCircuit q mem ptr 0 = false) (hfm : fullMatch q mem ptr 0 = false) :
    forLoop q mem cnt (n + 1) ptr = forLoop q mem cnt n (ptr + 1) := by
  simp only [shortCircuit, fullMatch, Nat.add_zero, beq_eq_false_iff_ne, ne_eq,
    Bool.and_eq_false_imp, Bool.or_eq_false_iff, beq_iff_eq] at hsc hfm
  rw [forLoop]
  simp only [hsc, if_false]
  by_cases hm : matchCheck q (mem ptr) = true
  · have h := hfm hm
    simp [hm, h.1, h.2]
  · simp [hm]

/-- A pass of the loop body on a full match that is not short-circuited writes
the replacement and leaves the loop. -/
theorem forLoop_hit (q : patchEntry) (mem : Memory) (cnt n ptr : Nat)
    (hsc : shortCircuit q mem ptr 0 = false) (hfm : fullMatch q mem ptr 0 = true) :
    forLoop q mem cnt (n + 1) ptr =
      ⟨Function.update mem (ptr + q.patchOffset) q.patchValue,
        { q with
          patchAddress := ptr + q.patchOffset
          originalValue := mem (ptr + q.patchOffset)
          isPatched := true },
        cnt + 1, Outcome.applied⟩ := by
  simp only [shortCircuit, fullMatch, Nat.add_zero, beq_eq_false_iff_ne, ne_eq,
    Bool.and_eq_true, Bool.or_eq_true, beq_iff_eq] at hsc hfm
  rw [forLoop]
  simp only [hsc, if_false, hfm.1, if_true]
  rcases hfm.2 with h | h
  · simp [h]
  · simp [h]

/-- A pass of the loop body at a short-circuited offset leaves the loop without
a write. -/
theorem forLoop_short (q : patchEntry) (mem : Memory) (cnt n ptr : Nat)
    (hsc : shortCircuit q mem ptr 0 = true) :
    forLoop q mem cnt (n + 1) ptr = ⟨mem, q, cnt, Outcome.alreadyApplied⟩ := by
  simp only [shortCircuit, Nat.add_zero, beq_iff_eq] at hsc
  rw [forLoop]
  simp [hsc]

theorem forLoop_applied (q : patchEntry) (mem : Memory) (cnt : Nat) :
    ∀ (k n ptr : Nat), k < n → fullMatch q mem ptr k = true →
      (∀ j, j < k → fullMatch q mem ptr j = false) →
      (∀ j, j ≤ k → shortCircuit q mem ptr j = false) →
      forLoop q mem cnt n ptr =
        ⟨Function.update mem (ptr + k + q.patchOffset) q.patchValue,
          { q with
            patchAddress := ptr + k + q.patchOffset
            originalValue := mem (ptr + k + q.patchOffset)
            isPatched := true },
          cnt + 1, Outcome.applied⟩ := by
  intro k
  induction k with
  | zero =>
    intro n ptr hk hfm _ hsc
    obtain ⟨m, rfl⟩ : ∃ m, n = m + 1 := ⟨n - 1, by omega⟩
    rw [forLoop_hit q mem cnt m ptr (hsc 0 (Nat.le_refl 0)) hfm]
    simp
  | succ k ih =>
    intro n ptr hk hfm hmin hsc
    obtain ⟨m, rfl⟩ : ∃ m, n = m + 1 := ⟨n - 1, by omega⟩
    rw [forLoop_skip q mem cnt m ptr (hsc 0 (Nat.zero_le _)) (hmin 0 (Nat.succ_pos k))]
    rw [ih m (ptr + 1) (by omega) (by rw [fullMatch_succ]; exact hfm)
      (fun j hj => by rw [fullMatch_succ]; exact hmin (j + 1) (by omega))
      (fun j hj => by rw [shortCircuit_succ]; exact hsc (j + 1) (by omega))]
    rw [show ptr + 1 + k = ptr + (k + 1) by omega]

theorem fullMatch_startAddress (p : patchEntry) (a : Nat) (mem : Memory) (c k : Nat) :
    fullMatch { p with startAddress := a } mem c k = fullMatch p mem c k := rfl

theorem shortCircuit_startAddress (p : patchEntry) (a : Nat) (mem : Memory) (c k : Nat) :
    shortCircuit { p with startAddress := a } mem c k = shortCircuit p mem c k := rfl

/-- C1: when the symbol resolves, `k` is the first offset below `maxOffset`
that passes the match check and (for `verifyOffset != 0`) the verify check, and
no offset `j <= k` is short-circuited, the scan of the descriptor writes
`patchValue` at `cursor + k + patchOffset`, records that address and the word
that stood there, sets `isPatched`, and adds exactly one to the counter; run on
the descriptor alone, `yf_patchkernel_run_patch` returns 1. -/
theorem run_patch_applies_at_first_match (ksym : String → Nat) (mem : Memory)
    (p : patchEntry) (cnt k : Nat)
    (hsym : ksym p.fname ≠ 0) (hk : k < p.maxOffset)
    (hfm : fullMatch p mem (cursor ksym p) k = true)
    (hmin : ∀ j, j < k → fullMatch p mem (cursor ksym p) j = false)
    (hsc : ∀ j, j ≤ k → shortCircuit p mem (cursor ksym p) j = false) :
    scanEntry ksym mem p cnt =
        ⟨Function.update mem (cursor ksym p + k + p.patchOffset) p.patchValue,
          { p with
            startAddress := ksym p.fname
            patchAddress := cursor ksym p + k + p.patchOffset
            originalValue := mem (cursor ksym p + k + p.patchOffset)
            isPatched := true },
          cnt + 1, Outcome.applied⟩ ∧
      (yf_patchkernel_run_patch ksym mem [p]).patches_applied = 1 ∧
      (yf_patchkernel_run_patch ksym mem [p]).log = [Outcome.applied] := by
  have key : ∀ c, scanEntry ksym mem p c =
      ⟨Function.update mem (cursor ksym p + k + p.patchOffset) p.patchValue,
        { p with
          startAddress := ksym p.fname
          patchAddress := cursor ksym p + k + p.patchOffset
          originalValue := mem (cursor ksym p + k + p.patchOffset)
          isPatched := true },
        c + 1, Outcome.applied⟩ := by
    intro c
    unfold scanEntry
    simp only [hsym, if_false]
    exact forLoop_applied { p with startAddress := ksym p.fname } mem c k p.maxOffset
      (ksym p.fname + p.startOffset) hk hfm hmin hsc
  refine ⟨key cnt, ?_, ?_⟩
  · simp [yf_patchkernel_run_patch, whileLoop, key 0]
  · simp [yf_patchkernel_run_patch, whileLoop, key 0]

/-- Scenario C as an instance of C1: the match is at offset 3 and the word at
`patchOffset + 3` is replaced. -/
theorem run_patch_applies_at_first_match_witness :
    scenarioC_syms scenarioC_patch.fname ≠ 0 ∧
      fullMatch scenarioC_patch scenarioC_mem (cursor scenarioC_syms scenarioC_patch) 3 = true ∧
      (scanEntry scenarioC_syms scenarioC_mem scenarioC_patch 0).patch.patchAddress = 1000 + 3 + 2 ∧
      (scanEntry scenarioC_syms scenarioC_mem scenarioC_patch 0).mem 1005 = 0x24020000 ∧
      (scanEntry scenarioC_syms scenarioC_mem scenarioC_patch 0).patch.originalValue = 0x11 ∧
      (scanEntry scenarioC_syms scenarioC_mem scenarioC_patch 0).patch.isPatched = true ∧
      (scanEntry scenarioC_syms scenarioC_mem scenarioC_patch 0).patches_applied = 1 := by
  have h := (run_patch_applies_at_first_match scenarioC_syms scenarioC_mem scenarioC_patch 0 3
    (by decide) (by decide) (by decide) (by decide) (by decide)).1
  refine ⟨by decide, by decide, ?_, ?_, ?_, ?_, ?_⟩
  · rw [h]; rfl
  · rw [h]; rfl
  · rw [h]; rfl
  · rw [h]
  · rw [h]

/-- The three ways the `for` loop can end, with the offset at which it ends:
a write at the first full match `k` (no offset up to `k` short-circuited), a
short-circuit at `k` (no full match before it), or no offset stopping the scan. -/
theorem forLoop_cases (q : patchEntry) (mem : Memory) (cnt : Nat) :
    ∀ (n ptr : Nat),
      (∃ k, k < n ∧ fullMatch q mem ptr k = true ∧
          shortCircuit q mem ptr k = false ∧
          (∀ j, j < k → fullMatch q mem ptr j = false ∧ shortCircuit q mem ptr j = false) ∧
          forLoop q mem cnt n ptr =
            ⟨Function.update mem (ptr + k + q.patchOffset) q.patchValue,
              { q with
                patchAddress := ptr + k + q.patchOffset
                originalValue := mem (ptr + k + q.patchOffset)
                isPatched := true },
              cnt + 1, Outcome.applied⟩) ∨
      (∃ k, k < n ∧ shortCircuit q mem ptr k = true ∧
          (∀ j, j < k → fullMatch q mem ptr j = false ∧ shortCircuit q mem ptr j = false) ∧
          forLoop q mem cnt n ptr = ⟨mem, q, cnt, Outcome.alreadyApplied⟩) ∨
      ((∀ j, j < n → fullMatch q mem ptr j = false ∧ shortCircuit q mem ptr j = false) ∧
          forLoop q mem cnt n ptr = ⟨mem, q, cnt, Outcome.noMatch⟩) := by
  intro n
  induction n with
  | zero =>
    intro ptr
    right; right
    exact ⟨fun j hj => absurd hj (Nat.not_lt_zero j), by rw [forLoop]⟩
  | succ n ih =>
    intro ptr
    cases hsc : shortCircuit q mem ptr 0 with
    | true =>
      right; left
      exact ⟨0, Nat.succ_pos n, hsc, fun j hj => absurd hj (Nat.not_lt_zero j),
        forLoop_short q mem cnt n ptr hsc⟩
    | false =>
      cases hfm : fullMatch q mem ptr 0 with
      | true =>
        left
        refine ⟨0, Nat.succ_pos n, hfm, hsc, fun j hj => absurd hj (Nat.not_lt_zero j), ?_⟩
        rw [forLoop_hit q mem cnt n ptr hsc hfm]
        simp
      | false =>
        have shift : ∀ k, (∀ j, j < k → fullMatch q mem (ptr + 1) j = false ∧
            shortCircuit q mem (ptr + 1) j = false) →
            ∀ j, j < k + 1 → fullMatch q mem ptr j = false ∧ shortCircuit q mem ptr j = false := by
          intro k hq j hj
          cases j with
          | zero => exact ⟨hfm, hsc⟩
          | succ j =>
            have := hq j (by omega)
            rw [fullMatch_succ, shortCircuit_succ] at this
            exact this
        rw [forLoop_skip q mem cnt n ptr hsc hfm]
        rcases ih (ptr + 1) with ⟨k, hk, h1, h2, h3, h4⟩ | ⟨k, hk, h1, h3, h4⟩ | ⟨h3, h4⟩
        · left
          refine ⟨k + 1, by omega, ?_, ?_, shift k h3, ?_⟩
          · rw [← fullMatch_succ]; exact h1
          · rw [← shortCircuit_succ]; exact h2
          · rw [h4, show ptr + 1 + k = ptr + (k + 1) by omega]
        · right; left
          refine ⟨k + 1, by omega, ?_, shift k h3, h4⟩
          rw [← shortCircuit_succ]; exact h1
        · right; right
          exact ⟨shift n h3, h4⟩

/-- C2: one scan of a descriptor changes at most one memory word. When the
outcome is `applied`, the write went to `cursor + k + patchOffset` for an offset
`k < maxOffset` and every other word is unchanged. When the symbol is not
found, when no offset below `maxOffset` passes match and verify, when the
short-circuit check fires (outcome `alreadyApplied`), and in general whenever the
outcome is not `applied`, memory, `patchAddress`, `originalValue`, `isPatched`
and the counter are unchanged. -/
theorem scan_changes_at_most_one_word (ksym : String → Nat) (mem : Memory)
    (p : patchEntry) (cnt : Nat) :
    ((scanEntry ksym mem p cnt).outcome = Outcome.applied →
        ∃ k, k < p.maxOffset ∧
          (scanEntry ksym mem p cnt).patch.patchAddress = cursor ksym p + k + p.patchOffset ∧
          (scanEntry ksym mem p cnt).mem =
            Function.update mem (cursor ksym p + k + p.patchOffset) p.patchValue ∧
          ∀ a, a ≠ cursor ksym p + k + p.patchOffset → (scanEntry ksym mem p cnt).mem a = mem a) ∧
      ((scanEntry ksym mem p cnt).outcome ≠ Outcome.applied →
        (scanEntry ksym mem p cnt).mem = mem ∧
          (scanEntry ksym mem p cnt).patch.patchAddress = p.patchAddress ∧
          (scanEntry ksym mem p cnt).patch.originalValue = p.originalValue ∧
          (scanEntry ksym mem p cnt).patch.isPatched = p.isPatched ∧
          (scanEntry ksym mem p cnt).patches_applied = cnt) ∧
      (ksym p.fname = 0 → (scanEntry ksym mem p cnt).outcome = Outcome.notFound) ∧
      ((∀ j, j < p.maxOffset → fullMatch p mem (cursor ksym p) j = false) →
        (scanEntry ksym mem p cnt).outcome ≠ Outcome.applied) ∧
      ((∃ k, k < p.maxOffset ∧ shortCircuit p mem (cursor ksym p) k = true ∧
          ∀ j, j < k → fullMatch p mem (cursor ksym p) j = false) →
        (scanEntry ksym mem p cnt).outcome ≠ Outcome.applied) := by
  by_cases hsym : ksym p.fname = 0
  · simp [scanEntry, hsym]
  · have hE : scanEntry ksym mem p cnt =
        forLoop { p with startAddress := ksym p.fname } mem cnt p.maxOffset
          (ksym p.fname + p.startOffset) := by
      unfold scanEntry
      simp only [hsym, if_false]
    rcases forLoop_cases { p with startAddress := ksym p.fname } mem cnt p.maxOffset
        (ksym p.fname + p.startOffset) with
      ⟨k, hk, h1, h2, h3, h4⟩ | ⟨k, hk, h1, h3, h4⟩ | ⟨h3, h4⟩
    · rw [hE, h4]
      refine ⟨fun _ => ⟨k, hk, rfl, rfl, fun a ha => Function.update_noteq ha _ _⟩,
        fun h => absurd rfl h, fun h => absurd h hsym, ?_, ?_⟩
      · intro hall
        have := hall k hk
        rw [fullMatch_startAddress] at h1
        simp only [cursor] at this
        rw [h1] at this
        exact absurd this (by simp)
      · rintro ⟨k2, hk2, hs2, hq2⟩
        exfalso
        rcases Nat.lt_trichotomy k k2 with hlt | heq | hgt
        · have := hq2 k hlt
          rw [fullMatch_startAddress] at h1
          simp only [cursor] at this
          rw [h1] at this
          exact absurd this (by simp)
        · subst heq
          rw [shortCircuit_startAddress] at h2
          simp only [cursor] at hs2
          rw [h2] at hs2
          exact absurd hs2 (by simp)
        · have := (h3 k2 hgt).2
          rw [shortCircuit_startAddress] at this
          simp only [cursor] at hs2
          rw [this] at hs2
          exact absurd hs2 (by simp)
    · rw [hE, h4]
      exact ⟨fun h => absurd h (by simp), fun _ => ⟨rfl, rfl, rfl, rfl, rfl⟩,
        fun h => absurd h hsym, fun _ => by simp, fun _ => by simp⟩
    · rw [hE, h4]
      exact ⟨fun h => absurd h (by simp), fun _ => ⟨rfl, rfl, rfl, rfl, rfl⟩,
        fun h => absurd h hsym, fun _ => by simp, fun _ => by simp⟩

/-! ## Theorems: version gate -/

/-- C5 (the code accepts what the claim says is rejected): the upper-limit block
of `yf_patchkernel_patch` lets a version exactly equal to
`(majorMax, minorMax, revisionMax)` through, for every list; so the built-in
list "from FRITZ!OS 06.98 to FRITZ!OS 07.08" (max 7.8.0) passes the whole
version check at version 7.8.0, the first version its bound declares as no
longer patched. -/
theorem upper_limit_accepts_version_equal_to_max :
    (∀ list : patchList,
        upperLimitAccepts list list.majorMax list.minorMax list.revisionMax = true) ∧
      (∀ sk, ∃ l, (entries sk).get? 1 = some l ∧
        (l.majorMax, l.minorMax, l.revisionMax) = (7, 8, 0) ∧ versionCheck l 7 8 0 = true) := by
  constructor
  · intro list
    simp [upperLimitAccepts]
  · intro sk
    exact ⟨_, rfl, rfl, by simp [versionCheck, lowerLimitAccepts, upperLimitAccepts]⟩

/-- The lower-limit block as a formula, for every bound (an all-zero bound
accepts everything). -/
theorem lowerLimitAccepts_iff (list : patchList) (major minor revision : Nat) :
    lowerLimitAccepts list major minor revision = true ↔
      (list.majorMin = 0 ∧ list.minorMin = 0 ∧ list.revisionMin = 0) ∨
      major > list.majorMin ∨
      (major = list.majorMin ∧
        (minor > list.minorMin ∨
          (minor = list.minorMin ∧ (list.revisionMin = 0 ∨ revision ≥ list.revisionMin)))) := by
  unfold lowerLimitAccepts
  split_ifs <;> simp <;> omega

/-- C10 as stated fails: for the lower bound (7, 0, 5), which has minor 0 and a
non-zero revision, the code rejects version 7.0-3 while the formula of the
claim accepts it. -/
theorem lower_bound_formula_counterexample :
    (lowerBound_7_0_5.majorMin ≠ 0 ∨ lowerBound_7_0_5.minorMin ≠ 0 ∨
        lowerBound_7_0_5.revisionMin ≠ 0) ∧
      lowerLimitAccepts lowerBound_7_0_5 7 0 3 = false ∧
      spec_satisfiesLowerBound lowerBound_7_0_5 7 0 3 = true := by
  decide

/-- C10 (amended): for every version and every lower bound `L` (not-all-zero
or not), the lower-limit block accepts the version iff `major > L.major`, or
`major == L.major` and (`minor > L.minor` or (`minor == L.minor` and
(`L.revision == 0` or `revision >= L.revision`))). For bounds with
`L.minor != 0` or `L.revision == 0` this is the formula of the specification. -/
theorem lower_limit_check_formula (list : patchList) (major minor revision : Nat) :
    (lowerLimitAccepts list major minor revision = true ↔
        major > list.majorMin ∨
        (major = list.majorMin ∧
          (minor > list.minorMin ∨
            (minor = list.minorMin ∧
              (list.revisionMin = 0 ∨ revision ≥ list.revisionMin))))) ∧
      (list.minorMin ≠ 0 ∨ list.revisionMin = 0 →
        lowerLimitAccepts list major minor revision =
          spec_satisfiesLowerBound list major minor revision) := by
  constructor
  · rw [lowerLimitAccepts_iff]
    constructor
    · rintro (h | h)
      · omega
      · exact h
    · intro h
      exact Or.inr h
  · intro h2
    rw [Bool.eq_iff_iff, lowerLimitAccepts_iff]
    simp only [spec_satisfiesLowerBound, decide_eq_true_eq]
    constructor
    · rintro (h | h | h) <;> omega
    · intro h
      omega

/-- The amended C10 at the bound (7, 0, 5): version 7.0-3 is rejected, version
7.0-5 is accepted. -/
theorem lower_limit_check_formula_witness :
    (lowerBound_7_0_5.majorMin ≠ 0 ∨ lowerBound_7_0_5.minorMin ≠ 0 ∨
        lowerBound_7_0_5.revisionMin ≠ 0) ∧
      lowerLimitAccepts lowerBound_7_0_5 7 0 3 = false ∧
      lowerLimitAccepts lowerBound_7_0_5 7 0 5 = true := by
  have h3 := (lower_limit_check_formula lowerBound_7_0_5 7 0 3).1
  have h5 := (lower_limit_check_formula lowerBound_7_0_5 7 0 5).1
  refine ⟨by decide, ?_, ?_⟩
  · rw [← Bool.not_eq_true, h3]
    decide
  · rw [h5]
    decide

/-! ## Theorems: version parser and fail-closed orchestration -/

/-- When the parser returns 0, `yf_patchkernel_patch` takes its `else` branch:
it ends at once, with memory and table as they were and `patchCount` never
assigned. -/
theorem patch_of_parse_failure (ksym : String → Nat) (fwSize : Nat)
    (info : Option (List Char)) (out : VersionOut) (fuel : Nat) (mem : Memory)
    (table : List patchList)
    (h : (yf_patchkernel_parse_firmwarestring fwSize info out).1 = false) :
    yf_patchkernel_patch ksym fwSize info out fuel mem table = some ⟨mem, table, none⟩ := by
  unfold yf_patchkernel_patch
  simp [h]

theorem parse_rejects_null (fwSize : Nat) (out : VersionOut) :
    (yf_patchkernel_parse_firmwarestring fwSize none out).1 = false := rfl

theorem parse_rejects_empty (fwSize : Nat) (out : VersionOut) :
    (yf_patchkernel_parse_firmwarestring fwSize (some []) out).1 = false := rfl

/-- Past the NULL, length and copy checks the parser is its loop. -/
theorem parse_eq_parseLoop (fwSize : Nat) (s : List Char) (out : VersionOut)
    (h0 : s ≠ []) (hlen : s.length < fwSize) :
    yf_patchkernel_parse_firmwarestring fwSize (some s) out = parseLoop 4 s out := by
  unfold yf_patchkernel_parse_firmwarestring
  have : s.length ≠ 0 := fun h => h0 (List.length_eq_zero.mp h)
  simp [this, hlen]

/-- The parser returns 0 whenever its loop does. -/
theorem parse_fails_of_parseLoop (fwSize : Nat) (s : List Char) (out : VersionOut)
    (h : (parseLoop 4 s out).1 = false) :
    (yf_patchkernel_parse_firmwarestring fwSize (some s) out).1 = false := by
  unfold yf_patchkernel_parse_firmwarestring
  simp only
  split_ifs
  · rfl
  · exact h
  · rfl

theorem parse_rejects_abc (fwSize : Nat) (out : VersionOut) :
    (yf_patchkernel_parse_firmwarestring fwSize (some "abc".toList) out).1 = false :=
  parse_fails_of_parseLoop fwSize _ out rfl

/-- A text without the delimiter is consumed whole by `strchrnul`. -/
theorem dropWhile_ne_eq_nil (d : Char) (T : List Char) (hT : d ∉ T) :
    T.dropWhile (fun c => decide (c ≠ d)) = [] := by
  rw [List.dropWhile_eq_nil_iff]
  intro x hx
  have : x ≠ d := fun h => hT (h ▸ hx)
  exact decide_eq_true this

/-- The delimiter search stops at the first delimiter. -/
theorem dropWhile_ne_append (d : Char) (A T : List Char) (hA : d ∉ A) :
    (A ++ d :: T).dropWhile (fun c => decide (c ≠ d)) = d :: T := by
  induction A with
  | nil =>
    have hp : ¬ (fun c => decide (c ≠ d)) d = true := by simp
    rw [List.nil_append, @List.dropWhile_cons_of_neg _ (fun c => decide (c ≠ d)) d T hp]
  | cons a A ih =>
    have ha : a ≠ d := fun h => hA (h ▸ List.mem_cons_self a A)
    have hA2 : d ∉ A := fun h => hA (List.mem_cons_of_mem a h)
    have hp : (fun c => decide (c ≠ d)) a = true := decide_eq_true ha
    rw [List.cons_append,
      @List.dropWhile_cons_of_pos _ (fun c => decide (c ≠ d)) a (A ++ d :: T) hp]
    exact ih hA2

/-- A pass of the parser loop in state 1 or 2 that finds no delimiter returns 0
("missing major or minor"). -/
theorem parseLoop_missing (left : Nat) (ptr : List Char) (out : VersionOut)
    (hleft : 2 ≤ left) (hleft4 : left ≤ 3) (h0 : ptr ≠ [])
    (hd : ptr.dropWhile (fun c => decide (c ≠ delimOf (4 - left))) = []) :
    (parseLoop (left + 1) ptr out).1 = false := by
  rw [parseLoop]
  simp only [h0, if_false]
  rw [hd]
  have : 4 - left < 3 := by omega
  simp [this]

/-- A pass of the parser loop in state 1, 2 or 3 that finds its delimiter
converts the field before it and goes on behind the delimiter. -/
theorem parseLoop_field (left : Nat) (ptr rest : List Char) (d : Char) (out : VersionOut)
    (hleft : 1 ≤ left) (h0 : ptr ≠ [])
    (hd : ptr.dropWhile (fun c => decide (c ≠ delimOf (4 - left))) = d :: rest) :
    parseLoop (left + 1) ptr out =
      match kstrtouint (ptr.takeWhile (fun c => decide (c ≠ delimOf (4 - left)))) with
      | some value =>
        if 4 - left = 1 then parseLoop left rest { out with major := value }
        else if 4 - left = 2 then parseLoop left rest { out with minor := value }
        else if 4 - left = 3 then parseLoop left rest { out with revision := value }
        else (false, out)
      | none => (false, out) := by
  rw [parseLoop]
  simp only [h0, if_false]
  rw [hd]
  have : 4 - left < 4 := by omega
  simp only [this, if_true]

/-- A version string with a single dot that is followed by more text is rejected
("missing major or minor"), whatever the fields hold. -/
theorem parse_rejects_single_dot (fwSize : Nat) (out : VersionOut) (A T : List Char)
    (hA : '.' ∉ A) (hT : '.' ∉ T) (hT0 : T ≠ []) :
    (yf_patchkernel_parse_firmwarestring fwSize (some (A ++ '.' :: T)) out).1 = false := by
  apply parse_fails_of_parseLoop
  rw [parseLoop_field 3 (A ++ '.' :: T) T '.' out (by omega) (by simp)
    (dropWhile_ne_append '.' A T hA)]
  cases kstrtouint ((A ++ '.' :: T).takeWhile (fun c => decide (c ≠ delimOf (4 - 3)))) with
  | none => rfl
  | some v => exact parseLoop_missing 2 T _ (by omega) (by omega) hT0 (dropWhile_ne_eq_nil '.' T hT)

/-- A successful run of the parser loop never leaves `*dirty` set by the loop:
it is 0 or still holds what it held before. -/
theorem parseLoop_success_dirty :
    ∀ (left : Nat) (ptr : List Char) (out : VersionOut), left ≤ 4 →
      (parseLoop left ptr out).1 = true →
      (parseLoop left ptr out).2.dirty = 0 ∨ (parseLoop left ptr out).2.dirty = out.dirty := by
  intro left
  induction left with
  | zero =>
    intro ptr out _ _
    right
    rw [parseLoop]
  | succ left ih =>
    intro ptr out hleft
    by_cases h0 : ptr = []
    · rw [parseLoop]
      simp [h0]
    · cases hd : ptr.dropWhile (fun c => decide (c ≠ delimOf (4 - left))) with
      | nil =>
        rw [parseLoop]
        simp only [h0, if_false]
        rw [hd]
        simp only
        split_ifs <;> simp
      | cons d rest =>
        by_cases hl : 1 ≤ left
        · rw [parseLoop_field left ptr rest d out hl h0 hd]
          cases kstrtouint (ptr.takeWhile (fun c => decide (c ≠ delimOf (4 - left)))) with
          | none => simp
          | some v =>
            simp only
            split_ifs
            · exact fun hs => ih rest _ (by omega) hs
            · exact fun hs => ih rest _ (by omega) hs
            · exact fun hs => ih rest _ (by omega) hs
            · simp
        · have hl0 : left = 0 := by omega
          subst hl0
          rw [parseLoop]
          simp only [h0, if_false]
          rw [hd]
          simp [parseLoop]

/-- C6: fail-closed. Whenever `yf_patchkernel_parse_firmwarestring` returns 0,
`yf_patchkernel_patch` ends (for every bound on the number of loop passes, even
0) with the memory image and the whole table, hence every descriptor and its
`isPatched`, exactly as before and without `patchCount` ever being assigned;
and the parser does return 0 on an unavailable version record, on the empty
string and on "abc". -/
theorem patch_fail_closed (ksym : String → Nat) (fwSize : Nat)
    (info : Option (List Char)) (out : VersionOut) (fuel : Nat) (mem : Memory)
    (table : List patchList)
    (h : (yf_patchkernel_parse_firmwarestring fwSize info out).1 = false) :
    yf_patchkernel_patch ksym fwSize info out fuel mem table = some ⟨mem, table, none⟩ ∧
      (yf_patchkernel_parse_firmwarestring fwSize none out).1 = false ∧
      (yf_patchkernel_parse_firmwarestring fwSize (some "".toList) out).1 = false ∧
      (yf_patchkernel_parse_firmwarestring fwSize (some "abc".toList) out).1 = false :=
  ⟨patch_of_parse_failure ksym fwSize info out fuel mem table h, parse_rejects_null fwSize out,
    parse_rejects_empty fwSize out, parse_rejects_abc fwSize out⟩

/-- C6 at the malformed string "abc": nothing of the built-in table is applied. -/
theorem patch_fail_closed_witness :
    (yf_patchkernel_parse_firmwarestring 128 (some "abc".toList) ⟨0, 0, 0, 0⟩).1 = false ∧
      yf_patchkernel_patch scenarioC_syms 128 (some "abc".toList) ⟨0, 0, 0, 0⟩ 5
        scenarioC_mem (entries 16) = some ⟨scenarioC_mem, entries 16, none⟩ :=
  ⟨by decide,
    (patch_fail_closed scenarioC_syms 128 (some "abc".toList) ⟨0, 0, 0, 0⟩ 5 scenarioC_mem
      (entries 16) (by decide)).1⟩

/-- C7 (the code rejects what the claim says it parses): "7.8-3M" makes the
parser return 0, for every buffer size and every prior content of the
out-parameters, and so does every string `A.B-CM` whose fields `A`, `B`, `C`
hold no dot (decimal numbers in particular); and on no input at all does a
successful call hand back a `dirty` that the parser set to 1: after success
`*dirty` is 0 or untouched. -/
theorem parse_rejects_dirty_version_string :
    (∀ fwSize out,
        (yf_patchkernel_parse_firmwarestring fwSize (some "7.8-3M".toList) out).1 = false) ∧
      (∀ fwSize out (A B C : List Char), '.' ∉ A → '.' ∉ B → '.' ∉ C →
        (yf_patchkernel_parse_firmwarestring fwSize
          (some (A ++ '.' :: (B ++ '-' :: (C ++ ['M'])))) out).1 = false) ∧
      (∀ fwSize s out, (yf_patchkernel_parse_firmwarestring fwSize (some s) out).1 = true →
        (yf_patchkernel_parse_firmwarestring fwSize (some s) out).2.dirty = 0 ∨
          (yf_patchkernel_parse_firmwarestring fwSize (some s) out).2.dirty = out.dirty) := by
  refine ⟨?_, ?_, ?_⟩
  · intro fwSize out
    exact parse_fails_of_parseLoop fwSize _ out rfl
  · intro fwSize out A B C hA hB hC
    apply parse_rejects_single_dot fwSize out A _ hA
    · simp only [List.mem_append, List.mem_cons, List.mem_singleton, not_or]
      exact ⟨hB, by decide, hC, by decide, by simp⟩
    · simp
  · intro fwSize s out
    unfold yf_patchkernel_parse_firmwarestring
    simp only
    split_ifs
    · simp
    · exact parseLoop_success_dirty 4 s out (Nat.le_refl 4)
    · simp

/-- C8 (the code rejects what the claim says it parses): "7.8" makes the parser
return 0 ("missing major or minor"), and so does every string `A.B` whose
fields hold no dot and whose `B` is not empty; so `yf_patchkernel_patch` leaves
a table holding a list with `minVersion = (7,8,0)` and all-zero `maxVersion`
untouched, although the version check itself would accept version 7.8.0 for
that list. -/
theorem patch_rejects_major_minor_only (ksym : String → Nat) (fwSize : Nat)
    (out : VersionOut) (fuel : Nat) (mem : Memory) :
    (yf_patchkernel_parse_firmwarestring fwSize (some "7.8".toList) out).1 = false ∧
      (∀ A B : List Char, '.' ∉ A → '.' ∉ B → B ≠ [] →
        (yf_patchkernel_parse_firmwarestring fwSize (some (A ++ '.' :: B)) out).1 = false) ∧
      yf_patchkernel_patch ksym fwSize (some "7.8".toList) out fuel mem [scenarioA_list] =
        some ⟨mem, [scenarioA_list], none⟩ ∧
      versionCheck scenarioA_list 7 8 0 = true := by
  have h : (yf_patchkernel_parse_firmwarestring fwSize (some "7.8".toList) out).1 = false :=
    parse_fails_of_parseLoop fwSize _ out rfl
  exact ⟨h, fun A B hA hB hB0 => parse_rejects_single_dot fwSize out A B hA hB hB0,
    patch_of_parse_failure ksym fwSize _ out fuel mem _ h, by decide⟩

/-- C9 (the code accepts what the claim says is rejected): with a buffer large
enough for the string, "7.8.xyz" is parsed successfully as (7, 8, 0, dirty 0),
the text after the second dot never being looked at, and "7.8.3-junk" is parsed
successfully as (7, 8, 3, dirty 0), the text after the revision being
accepted. -/
theorem parse_accepts_trailing_text (n : Nat) (out : VersionOut) :
    yf_patchkernel_parse_firmwarestring (n + 11) (some "7.8.xyz".toList) out =
        (true, ⟨7, 8, 0, 0⟩) ∧
      yf_patchkernel_parse_firmwarestring (n + 11) (some "7.8.3-junk".toList) out =
        (true, ⟨7, 8, 3, 0⟩) := by
  constructor
  · rw [parse_eq_parseLoop _ _ _ (by decide) (by simp)]
    rfl
  · rw [parse_eq_parseLoop _ _ _ (by decide) (by simp)]
    rfl

/-! ## Theorems: apply followed by restore -/

/-- With `patch` on an end marker every pass of the outer restore loop is
empty. -/
theorem restoreLoop_nil (list : List patchList) (mem : Memory) (walked : List patchEntry) :
    restoreLoop list mem walked [] = (mem, walked) := by
  induction list generalizing walked with
  | nil => simp [restoreLoop]
  | cons l list ih => simp [restoreLoop, restoreWalk, ih]

/-- On a table that is not empty the call walks the array `patch` points into,
once. -/
theorem restore_cons (l : patchList) (list : List patchList) (patch : List patchEntry)
    (mem : Memory) :
    yf_patchkernel_restore (l :: list) patch mem = restoreWalk patch mem := by
  simp [yf_patchkernel_restore, restoreLoop, restoreLoop_nil]

/-- The walk has nothing to do on an array without applied entries. -/
theorem restoreWalk_clear (patches : List patchEntry) (mem : Memory)
    (h : ∀ p ∈ patches, p.isPatched = false) : restoreWalk patches mem = (mem, patches) := by
  induction patches generalizing mem with
  | nil => rfl
  | cons p rest ih =>
    have hp : p.isPatched = false := h p (List.mem_cons_self p rest)
    have hrest : ∀ q ∈ rest, q.isPatched = false := fun q hq => h q (List.mem_cons_of_mem p hq)
    rw [restoreWalk]
    simp [hp, ih mem hrest]

/-- After the walk no entry is marked applied. -/
theorem restoreWalk_isPatched (patches : List patchEntry) (mem : Memory) :
    ∀ p ∈ (restoreWalk patches mem).2, p.isPatched = false := by
  induction patches generalizing mem with
  | nil => simp [restoreWalk]
  | cons p rest ih =>
    rw [restoreWalk]
    by_cases hp : p.isPatched = true
    · simp only [hp, if_true, List.mem_cons]
      rintro q (rfl | hq)
      · rfl
      · exact ih _ q hq
    · simp only [hp, Bool.false_eq_true, if_false, List.mem_cons]
      rintro q (rfl | hq)
      · simpa using hp
      · exact ih _ q hq

/-- The walk leaves alone every word that is not the `patchAddress` of an
applied entry. -/
theorem restoreWalk_frame (patches : List patchEntry) (mem : Memory) (a : Nat)
    (h : ∀ p ∈ patches, p.isPatched = true → p.patchAddress ≠ a) :
    (restoreWalk patches mem).1 a = mem a := by
  induction patches generalizing mem with
  | nil => rfl
  | cons p rest ih =>
    have hrest : ∀ q ∈ rest, q.isPatched = true → q.patchAddress ≠ a :=
      fun q hq => h q (List.mem_cons_of_mem p hq)
    rw [restoreWalk]
    by_cases hp : p.isPatched = true
    · simp only [hp, if_true]
      rw [ih _ hrest]
      exact Function.update_noteq (Ne.symm (h p (List.mem_cons_self p rest) hp)) _ _
    · simp only [hp, Bool.false_eq_true, if_false]
      exact ih _ hrest

/-- The walk leaves at `patchAddress` of an applied entry its `originalValue`,
unless a later applied entry has the same `patchAddress`. -/
theorem restoreWalk_original (patches : List patchEntry) (mem : Memory) (i : Nat)
    (d : patchEntry) (hd : patches.get? i = some d) (hpat : d.isPatched = true)
    (hlater : ∀ j e, i < j → patches.get? j = some e → e.isPatched = true →
      e.patchAddress ≠ d.patchAddress) :
    (restoreWalk patches mem).1 d.patchAddress = d.originalValue := by
  induction patches generalizing mem i with
  | nil => simp at hd
  | cons p rest ih =>
    cases i with
    | zero =>
      simp only [List.get?_cons_zero, Option.some.injEq] at hd
      subst hd
      rw [restoreWalk]
      simp only [hpat, if_true]
      rw [restoreWalk_frame]
      · simp
      · intro q hq hqp
        obtain ⟨j, hj⟩ := List.get?_of_mem hq
        exact hlater (j + 1) q (Nat.succ_pos j) (by simpa using hj) hqp
    | succ i =>
      simp only [List.get?_cons_succ] at hd
      have hl : ∀ j e, i < j → rest.get? j = some e → e.isPatched = true →
          e.patchAddress ≠ d.patchAddress :=
        fun j e hij he hep => hlater (j + 1) e (by omega) (by simpa using he) hep
      rw [restoreWalk]
      by_cases hp : p.isPatched = true
      · simp only [hp, if_true]
        exact ih _ i hd hl
      · simp only [hp, Bool.false_eq_true, if_false]
        exact ih _ i hd hl

/-- A scan that ends `applied` has marked the descriptor and recorded the word
that stood at `patchAddress` before the write. -/
theorem scanEntry_applied_original (ksym : String → Nat) (mem : Memory) (p : patchEntry)
    (cnt : Nat) (h : (scanEntry ksym mem p cnt).outcome = Outcome.applied) :
    (scanEntry ksym mem p cnt).patch.isPatched = true ∧
      (scanEntry ksym mem p cnt).patch.originalValue =
        mem (scanEntry ksym mem p cnt).patch.patchAddress := by
  unfold scanEntry at h ⊢
  by_cases hsym : ksym p.fname = 0
  · simp [hsym] at h
  · simp only [hsym, if_false] at h ⊢
    rcases forLoop_cases { p with startAddress := ksym p.fname } mem cnt p.maxOffset
        (ksym p.fname + p.startOffset) with
      ⟨k, _, _, _, _, h4⟩ | ⟨k, _, _, _, h4⟩ | ⟨_, h4⟩
    · rw [h4]
      exact ⟨rfl, rfl⟩
    · rw [h4] at h
      simp at h
    · rw [h4] at h
      simp at h

/-- Entry `i` of the array after the apply loop, when its scan ended `applied`:
it is marked, and its `originalValue` is the word that stood at its
`patchAddress` when the loop had handled the entries before it. -/
theorem whileLoop_applied_original (ksym : String → Nat) (patches : List patchEntry)
    (mem : Memory) (cnt i : Nat) (d : patchEntry)
    (hd : (whileLoop ksym patches mem cnt).patches.get? i = some d)
    (ho : (whileLoop ksym patches mem cnt).log.get? i = some Outcome.applied) :
    d.isPatched = true ∧
      d.originalValue = (whileLoop ksym (patches.take i) mem cnt).mem d.patchAddress := by
  induction patches generalizing mem cnt i with
  | nil => simp [whileLoop] at hd
  | cons p rest ih =>
    rw [whileLoop] at hd ho
    cases i with
    | zero =>
      simp only [List.get?_cons_zero, Option.some.injEq] at hd ho
      subst hd
      simpa [whileLoop] using scanEntry_applied_original ksym mem p cnt ho
    | succ i =>
      simp only [List.get?_cons_succ] at hd ho
      have := ih _ _ i hd ho
      simpa [whileLoop] using this

/-- C4 as stated fails: two descriptors of one list that both patch the word at
address 100 (first 1 to 2, then 2 to 3) both end `applied`; restore walks the
list front to back, so it writes 1 and then 2, and the word ends as 2, not as
the 1 it held before the first descriptor was patched. -/
theorem round_trip_same_word_counterexample :
    (yf_patchkernel_run_patch sameWord_syms sameWord_mem sameWord_list.patches).log =
        [Outcome.applied, Outcome.applied] ∧
      ((yf_patchkernel_run_patch sameWord_syms sameWord_mem sameWord_list.patches).patches.map
        (fun p => (p.patchAddress, p.originalValue))) = [(100, 1), (100, 2)] ∧
      sameWord_mem 100 = 1 ∧
      (yf_patchkernel_run_patch sameWord_syms sameWord_mem sameWord_list.patches).mem 100 = 3 ∧
      (yf_patchkernel_restore [sameWord_list]
        (yf_patchkernel_run_patch sameWord_syms sameWord_mem sameWord_list.patches).patches
        (yf_patchkernel_run_patch sameWord_syms sameWord_mem sameWord_list.patches).mem).1 100
        = 2 := by
  decide

/-- C4 (amended): after `yf_patchkernel_run_patch` over a descriptor array and
`yf_patchkernel_restore` on a non-empty table with `patch` at the start of that
array, every descriptor whose scan ended `applied` and whose `patchAddress` is
not the `patchAddress` of a later descriptor of the array that is marked applied
has the word at its `patchAddress` equal to the word that stood there just
before that descriptor was scanned and patched; and a second call of
`yf_patchkernel_restore` changes neither memory nor any descriptor. -/
theorem apply_restore_round_trip (ksym : String → Nat) (mem : Memory)
    (patches : List patchEntry) (l : patchList) (list : List patchList) :
    (∀ i d, (yf_patchkernel_run_patch ksym mem patches).patches.get? i = some d →
        (yf_patchkernel_run_patch ksym mem patches).log.get? i = some Outcome.applied →
        (∀ j e, i < j → (yf_patchkernel_run_patch ksym mem patches).patches.get? j = some e →
          e.isPatched = true → e.patchAddress ≠ d.patchAddress) →
        (yf_patchkernel_restore (l :: list) (yf_patchkernel_run_patch ksym mem patches).patches
            (yf_patchkernel_run_patch ksym mem patches).mem).1 d.patchAddress =
          (yf_patchkernel_run_patch ksym mem (patches.take i)).mem d.patchAddress) ∧
      yf_patchkernel_restore (l :: list)
          (yf_patchkernel_restore (l :: list) (yf_patchkernel_run_patch ksym mem patches).patches
            (yf_patchkernel_run_patch ksym mem patches).mem).2
          (yf_patchkernel_restore (l :: list) (yf_patchkernel_run_patch ksym mem patches).patches
            (yf_patchkernel_run_patch ksym mem patches).mem).1 =
        yf_patchkernel_restore (l :: list) (yf_patchkernel_run_patch ksym mem patches).patches
          (yf_patchkernel_run_patch ksym mem patches).mem := by
  constructor
  · intro i d hd ho hlater
    obtain ⟨hpat, horig⟩ := whileLoop_applied_original ksym patches mem 0 i d hd ho
    rw [restore_cons, restoreWalk_original _ _ i d hd hpat hlater, horig]
    rfl
  · rw [restore_cons, restore_cons]
    exact restoreWalk_clear _ _ (restoreWalk_isPatched _ _)

/-- The amended C4 on the two descriptors of one word: the second descriptor is
the last one applied to address 100, and restore leaves there the 2 that stood
there before the second descriptor was patched. -/
theorem apply_restore_round_trip_witness :
    (yf_patchkernel_run_patch sameWord_syms sameWord_mem sameWord_list.patches).log.get? 1 =
        some Outcome.applied ∧
      (yf_patchkernel_run_patch sameWord_syms sameWord_mem
        (sameWord_list.patches.take 1)).mem 100 = 2 ∧
      (yf_patchkernel_restore [sameWord_list]
        (yf_patchkernel_run_patch sameWord_syms sameWord_mem sameWord_list.patches).patches
        (yf_patchkernel_run_patch sameWord_syms sameWord_mem sameWord_list.patches).mem).1 100 =
        (yf_patchkernel_run_patch sameWord_syms sameWord_mem
          (sameWord_list.patches.take 1)).mem 100 := by
  refine ⟨by decide, by decide, ?_⟩
  exact (apply_restore_round_trip sameWord_syms sameWord_mem sameWord_list.patches
    sameWord_list []).1 1
    { sameWord_patch 3 with
      startAddress := 100, patchAddress := 100, originalValue := 2, isPatched := true }
    (by decide) (by decide)
    (fun j e hij he _ => by
      have hj : 2 ≤ j := hij
      obtain ⟨m, rfl⟩ : ∃ m, j = m + 2 := ⟨j - 2, by omega⟩
      have hnone : (yf_patchkernel_run_patch sameWord_syms sameWord_mem
          sameWord_list.patches).patches.get? (m + 2) = none := by
        simp [yf_patchkernel_run_patch, whileLoop, sameWord_list]
      rw [hnone] at he
      exact absurd he (by simp))

/-! ## Theorems: the apply pass run twice -/

/-- The loop ends `alreadyApplied` at the first short-circuited offset when no
offset before it stops the scan. -/
theorem forLoop_already (q : patchEntry) (mem : Memory) (cnt : Nat) :
    ∀ (k n ptr : Nat), k < n → shortCircuit q mem ptr k = true →
      (∀ j, j < k → fullMatch q mem ptr j = false ∧ shortCircuit q mem ptr j = false) →
      forLoop q mem cnt n ptr = ⟨mem, q, cnt, Outcome.alreadyApplied⟩ := by
  intro k
  induction k with
  | zero =>
    intro n ptr hk hsc _
    obtain ⟨m, rfl⟩ : ∃ m, n = m + 1 := ⟨n - 1, by omega⟩
    exact forLoop_short q mem cnt m ptr hsc
  | succ k ih =>
    intro n ptr hk hsc hq
    obtain ⟨m, rfl⟩ : ∃ m, n = m + 1 := ⟨n - 1, by omega⟩
    rw [forLoop_skip q mem cnt m ptr (hq 0 (Nat.succ_pos k)).2 (hq 0 (Nat.succ_pos k)).1]
    exact ih m (ptr + 1) (by omega) (by rw [shortCircuit_succ]; exact hsc)
      (fun j hj => by rw [fullMatch_succ, shortCircuit_succ]; exact hq (j + 1) (by omega))

/-- The loop ends `noMatch` when no offset stops the scan. -/
theorem forLoop_noMatch (q : patchEntry) (mem : Memory) (cnt : Nat) :
    ∀ (n ptr : Nat),
      (∀ j, j < n → fullMatch q mem ptr j = false ∧ shortCircuit q mem ptr j = false) →
      forLoop q mem cnt n ptr = ⟨mem, q, cnt, Outcome.noMatch⟩ := by
  intro n
  induction n with
  | zero =>
    intro ptr _
    rw [forLoop]
  | succ n ih =>
    intro ptr hq
    rw [forLoop_skip q mem cnt n ptr (hq 0 (Nat.succ_pos n)).2 (hq 0 (Nat.succ_pos n)).1]
    exact ih (ptr + 1)
      (fun j hj => by rw [fullMatch_succ, shortCircuit_succ]; exact hq (j + 1) (by omega))

/-- The full-match test at an offset reads the word at the offset and, with a
verify step, the word `verifyOffset` further. -/
theorem fullMatch_congr (q : patchEntry) (mem mem2 : Memory) (c k : Nat)
    (h1 : mem2 (c + k) = mem (c + k))
    (h2 : mem2 (c + k + q.verifyOffset) = mem (c + k + q.verifyOffset)) :
    fullMatch q mem2 c k = fullMatch q mem c k := by
  simp only [fullMatch, h1, h2]

/-- The short-circuit test at an offset reads the patch target of the offset. -/
theorem shortCircuit_congr (q : patchEntry) (mem mem2 : Memory) (c k : Nat)
    (h : mem2 (c + k + q.patchOffset) = mem (c + k + q.patchOffset)) :
    shortCircuit q mem2 c k = shortCircuit q mem c k := by
  simp only [shortCircuit, h]

/-- The second scan of a descriptor: started from a memory that agrees, on the
scan region, with the memory the first scan left, it writes nothing, counts
nothing, and reports the first outcome repeated (`applied` turned into
`alreadyApplied`), provided the verify word does not lie behind the patch
target. -/
theorem forLoop_second (q : patchEntry) (mem mem2 : Memory) (cnt cnt2 n ptr : Nat)
    (hvo : q.verifyOffset ≤ q.patchOffset)
    (hagree : ∀ a, ptr ≤ a → a < ptr + n + max q.patchOffset q.verifyOffset →
      mem2 a = (forLoop q mem cnt n ptr).mem a) :
    forLoop (forLoop q mem cnt n ptr).patch mem2 cnt2 n ptr =
      ⟨mem2, (forLoop q mem cnt n ptr).patch, cnt2,
        repeatOutcome (forLoop q mem cnt n ptr).outcome⟩ := by
  rcases forLoop_cases q mem cnt n ptr with
    ⟨k, hk, h1, h2, h3, h4⟩ | ⟨k, hk, h1, h3, h4⟩ | ⟨h3, h4⟩
  · rw [h4] at hagree ⊢
    simp only [repeatOutcome]
    have hup : ∀ a, a ≠ ptr + k + q.patchOffset → ptr ≤ a →
        a < ptr + n + max q.patchOffset q.verifyOffset → mem2 a = mem a := by
      intro a hne hlo hhi
      rw [hagree a hlo hhi]
      exact Function.update_noteq hne _ _
    apply forLoop_already _ mem2 cnt2 k n ptr hk
    · have := hagree (ptr + k + q.patchOffset) (by omega) (by omega)
      simp only [Function.update_same] at this
      simp only [shortCircuit, this, beq_self_eq_true]
    · intro j hj
      have hf : fullMatch q mem2 ptr j = fullMatch q mem ptr j :=
        fullMatch_congr q mem mem2 ptr j (hup _ (by omega) (by omega) (by omega))
          (hup _ (by omega) (by omega) (by omega))
      have hs : shortCircuit q mem2 ptr j = shortCircuit q mem ptr j :=
        shortCircuit_congr q mem mem2 ptr j (hup _ (by omega) (by omega) (by omega))
      exact ⟨hf.trans (h3 j hj).1, hs.trans (h3 j hj).2⟩
  · rw [h4] at hagree ⊢
    simp only [repeatOutcome]
    apply forLoop_already _ mem2 cnt2 k n ptr hk
    · rw [shortCircuit_congr q mem mem2 ptr k (hagree _ (by omega) (by omega))]
      exact h1
    · intro j hj
      rw [fullMatch_congr q mem mem2 ptr j (hagree _ (by omega) (by omega))
        (hagree _ (by omega) (by omega)),
        shortCircuit_congr q mem mem2 ptr j (hagree _ (by omega) (by omega))]
      exact h3 j hj
  · rw [h4] at hagree ⊢
    simp only [repeatOutcome]
    apply forLoop_noMatch _ mem2 cnt2 n ptr
    intro j hj
    rw [fullMatch_congr q mem mem2 ptr j (hagree _ (by omega) (by omega))
      (hagree _ (by omega) (by omega)),
      shortCircuit_congr q mem mem2 ptr j (hagree _ (by omega) (by omega))]
    exact h3 j hj

/-- The loop changes none of the fields of the descriptor that steer the scan. -/
theorem forLoop_patch_static (q : patchEntry) (mem : Memory) (cnt n ptr : Nat) :
    (forLoop q mem cnt n ptr).patch.fname = q.fname ∧
      (forLoop q mem cnt n ptr).patch.startAddress = q.startAddress ∧
      (forLoop q mem cnt n ptr).patch.startOffset = q.startOffset ∧
      (forLoop q mem cnt n ptr).patch.maxOffset = q.maxOffset := by
  rcases forLoop_cases q mem cnt n ptr with
    ⟨k, _, _, _, _, h4⟩ | ⟨k, _, _, _, h4⟩ | ⟨_, h4⟩ <;>
  · rw [h4]
    exact ⟨rfl, rfl, rfl, rfl⟩

/-- The second scan of a descriptor (see `forLoop_second`), symbol lookup
included. -/
theorem scanEntry_second (ksym : String → Nat) (p : patchEntry) (mem mem2 : Memory)
    (cnt cnt2 : Nat) (hvo : p.verifyOffset ≤ p.patchOffset)
    (hagree : ksym p.fname ≠ 0 → ∀ a, cursor ksym p ≤ a → a < regionEnd ksym p →
      mem2 a = (scanEntry ksym mem p cnt).mem a) :
    scanEntry ksym mem2 (scanEntry ksym mem p cnt).patch cnt2 =
      ⟨mem2, (scanEntry ksym mem p cnt).patch, cnt2,
        repeatOutcome (scanEntry ksym mem p cnt).outcome⟩ := by
  by_cases hsym : ksym p.fname = 0
  · simp [scanEntry, hsym, repeatOutcome]
  · have hE : scanEntry ksym mem p cnt =
        forLoop { p with startAddress := ksym p.fname } mem cnt p.maxOffset
          (ksym p.fname + p.startOffset) := by
      unfold scanEntry
      simp only [hsym, if_false]
    have hag := hagree hsym
    rw [hE] at hag ⊢
    obtain ⟨hf1, hf2, hf3, hf4⟩ := forLoop_patch_static { p with startAddress := ksym p.fname }
      mem cnt p.maxOffset (ksym p.fname + p.startOffset)
    have key := forLoop_second { p with startAddress := ksym p.fname } mem mem2 cnt cnt2
      p.maxOffset (ksym p.fname + p.startOffset) hvo hag
    generalize forLoop { p with startAddress := ksym p.fname } mem cnt p.maxOffset
      (ksym p.fname + p.startOffset) = r at hf1 hf2 hf3 hf4 key ⊢
    simp only at hf1 hf2 hf3 hf4
    have h0 : ¬ ksym r.patch.fname = 0 := by rw [hf1]; exact hsym
    have haddr : ksym r.patch.fname = r.patch.startAddress := by rw [hf1, hf2]
    have hself : ({ r.patch with startAddress := ksym r.patch.fname } : patchEntry) = r.patch := by
      rw [haddr]
    unfold scanEntry
    simp only [h0, if_false]
    rw [hself, hf1, hf3, hf4]
    exact key

/-- A scan changes no word outside the scan region of its descriptor. -/
theorem scanEntry_frame (ksym : String → Nat) (p : patchEntry) (mem : Memory) (cnt a : Nat)
    (h : ksym p.fname ≠ 0 → ¬ (cursor ksym p ≤ a ∧ a < regionEnd ksym p)) :
    (scanEntry ksym mem p cnt).mem a = mem a := by
  unfold scanEntry
  by_cases hsym : ksym p.fname = 0
  · simp [hsym]
  · simp only [hsym, if_false]
    rcases forLoop_cases { p with startAddress := ksym p.fname } mem cnt p.maxOffset
        (ksym p.fname + p.startOffset) with
      ⟨k, hk, _, _, _, h4⟩ | ⟨k, _, _, _, h4⟩ | ⟨_, h4⟩
    · rw [h4]
      apply Function.update_noteq
      intro ha
      apply h hsym
      simp only [regionEnd, cursor]
      simp only at ha
      omega
    · rw [h4]
    · rw [h4]

/-- The apply loop changes no word outside the scan regions of its
descriptors. -/
theorem whileLoop_frame (ksym : String → Nat) (patches : List patchEntry) (mem : Memory)
    (cnt a : Nat)
    (h : ∀ p ∈ patches, ksym p.fname ≠ 0 → ¬ (cursor ksym p ≤ a ∧ a < regionEnd ksym p)) :
    (whileLoop ksym patches mem cnt).mem a = mem a := by
  induction patches generalizing mem cnt with
  | nil => rfl
  | cons p rest ih =>
    rw [whileLoop]
    simp only
    rw [ih _ _ (fun q hq => h q (List.mem_cons_of_mem p hq))]
    exact scanEntry_frame ksym p mem cnt a (h p (List.mem_cons_self p rest))

/-- The apply loop run a second time on its own result, for descriptors whose
verify word does not lie behind the patch target and whose scan regions are
pairwise disjoint. -/
theorem whileLoop_twice (ksym : String → Nat) (patches : List patchEntry) :
    ∀ (mem : Memory) (cnt cnt2 : Nat),
      (∀ p ∈ patches, p.verifyOffset ≤ p.patchOffset) →
      patches.Pairwise (fun p q => disjointRegions ksym p q = true) →
      whileLoop ksym (whileLoop ksym patches mem cnt).patches
          (whileLoop ksym patches mem cnt).mem cnt2 =
        ⟨(whileLoop ksym patches mem cnt).mem, (whileLoop ksym patches mem cnt).patches, cnt2,
          (whileLoop ksym patches mem cnt).log.map repeatOutcome⟩ := by
  induction patches with
  | nil =>
    intro mem cnt cnt2 _ _
    simp [whileLoop]
  | cons p rest ih =>
    intro mem cnt cnt2 hvo hdis
    rw [List.pairwise_cons] at hdis
    have hrest := ih (scanEntry ksym mem p cnt).mem (scanEntry ksym mem p cnt).patches_applied
      cnt2 (fun q hq => hvo q (List.mem_cons_of_mem p hq)) hdis.2
    have hhead := scanEntry_second ksym p mem
      (whileLoop ksym rest (scanEntry ksym mem p cnt).mem
        (scanEntry ksym mem p cnt).patches_applied).mem cnt cnt2
      (hvo p (List.mem_cons_self p rest))
      (fun hsym a hlo hhi => whileLoop_frame ksym rest _ _ a (fun q hq hq0 hin => by
        have hd := hdis.1 q hq
        simp only [disjointRegions, Bool.or_eq_true, Bool.and_eq_true, beq_iff_eq,
          decide_eq_true_eq] at hd
        omega))
    rw [whileLoop]
    simp only
    rw [whileLoop, hhead]
    simp only
    rw [hrest]
    simp

/-- C3 as stated fails. (1) For a descriptor whose verify word lies behind its
patch target (`verifyOffset = 2`, `patchOffset = 1`) the first pass patches
address 102, which makes offset 0 pass the verify check in the second pass: the
second pass writes address 101, reports `applied` and returns 1. (2) For a
descriptor whose symbol does not resolve the second pass reports `notFound`
again, not `alreadyApplied`. (3) For two descriptors of one word, the first
looking for 2 and the second turning 1 into 2, the first pass applies only the
second descriptor; the second pass then applies the first one and writes 3. -/
theorem run_patch_twice_counterexample :
    (yf_patchkernel_run_patch sameWord_syms reapply_mem [reapply_patch]).log =
        [Outcome.applied] ∧
      (yf_patchkernel_run_patch sameWord_syms reapply_mem [reapply_patch]).mem 101 = 2 ∧
      (secondPass sameWord_syms reapply_mem [reapply_patch]).mem 101 = 0x99 ∧
      (secondPass sameWord_syms reapply_mem [reapply_patch]).patches_applied = 1 ∧
      (secondPass sameWord_syms reapply_mem [reapply_patch]).log = [Outcome.applied] ∧
      (secondPass sameWord_syms sameWord_mem [scenarioC_patch]).log = [Outcome.notFound] ∧
      (yf_patchkernel_run_patch sameWord_syms sameWord_mem
        [chain_patch 2 3, chain_patch 1 2]).log = [Outcome.noMatch, Outcome.applied] ∧
      (yf_patchkernel_run_patch sameWord_syms sameWord_mem
        [chain_patch 2 3, chain_patch 1 2]).mem 100 = 2 ∧
      (secondPass sameWord_syms sameWord_mem [chain_patch 2 3, chain_patch 1 2]).log =
        [Outcome.applied, Outcome.noMatch] ∧
      (secondPass sameWord_syms sameWord_mem [chain_patch 2 3, chain_patch 1 2]).mem 100 = 3 := by
  decide

/-- C3 (amended): for every descriptor array in which the scan region of every
descriptor whose symbol resolves lies inside the address space of the 32-bit
target (`regionFits`: no address the scan forms wraps around, so `patchOffset`
and `verifyOffset` point forward), every descriptor has
`verifyOffset <= patchOffset`, and the scan regions of the descriptors whose
symbol resolves are pairwise disjoint, and for every memory image: the first
run of `yf_patchkernel_run_patch` changes only words inside the address space,
and a second run right after the first leaves the memory image and every
descriptor as the first run left them, returns 0, performs no write (no
descriptor ends `applied`), and reports for each descriptor the outcome of the
first run repeated, with `applied` turned into `alreadyApplied`. -/
theorem run_patch_second_pass (ksym : String → Nat) (mem : Memory) (patches : List patchEntry)
    (hfit : ∀ p ∈ patches, regionFits ksym p = true)
    (hvo : ∀ p ∈ patches, p.verifyOffset ≤ p.patchOffset)
    (hdis : patches.Pairwise (fun p q => disjointRegions ksym p q = true)) :
    (∀ a, (yf_patchkernel_run_patch ksym mem patches).mem a ≠ mem a → a < addressWords) ∧
      (secondPass ksym mem patches).mem = (yf_patchkernel_run_patch ksym mem patches).mem ∧
      (secondPass ksym mem patches).patches =
        (yf_patchkernel_run_patch ksym mem patches).patches ∧
      (secondPass ksym mem patches).patches_applied = 0 ∧
      (secondPass ksym mem patches).log =
        (yf_patchkernel_run_patch ksym mem patches).log.map repeatOutcome ∧
      Outcome.applied ∉ (secondPass ksym mem patches).log := by
  have h := whileLoop_twice ksym patches mem 0 0 hvo hdis
  have hs : secondPass ksym mem patches =
      ⟨(yf_patchkernel_run_patch ksym mem patches).mem,
        (yf_patchkernel_run_patch ksym mem patches).patches, 0,
        (yf_patchkernel_run_patch ksym mem patches).log.map repeatOutcome⟩ := h
  rw [hs]
  refine ⟨?_, rfl, rfl, rfl, rfl, ?_⟩
  · intro a ha
    by_contra hlt
    apply ha
    apply whileLoop_frame
    intro p hp hp0 hin
    have hf := hfit p hp
    simp only [regionFits, Bool.or_eq_true, beq_iff_eq, decide_eq_true_eq] at hf
    omega
  · simp only [List.mem_map, not_exists, not_and]
    intro o _ ho
    cases o <;> simp [repeatOutcome] at ho

/-- The amended C3 on the built-in array `patchesForTunDevice_pre0708`: the
first pass patches `ip_forward` and `netif_receive_skb` and finds nothing in
`__netif_receive_skb`; the second pass writes nothing. -/
theorem run_patch_second_pass_witness :
    (∀ p ∈ patchesForTunDevice_pre0708 16, regionFits tun_syms p = true) ∧
      (∀ p ∈ patchesForTunDevice_pre0708 16, p.verifyOffset ≤ p.patchOffset) ∧
      (patchesForTunDevice_pre0708 16).Pairwise
        (fun p q => disjointRegions tun_syms p q = true) ∧
      (yf_patchkernel_run_patch tun_syms tun_mem (patchesForTunDevice_pre0708 16)).log =
        [Outcome.applied, Outcome.applied, Outcome.noMatch] ∧
      (secondPass tun_syms tun_mem (patchesForTunDevice_pre0708 16)).log =
        [Outcome.alreadyApplied, Outcome.alreadyApplied, Outcome.noMatch] ∧
      (secondPass tun_syms tun_mem (patchesForTunDevice_pre0708 16)).patches_applied = 0 := by
  have h := run_patch_second_pass tun_syms tun_mem (patchesForTunDevice_pre0708 16)
    (by decide) (by decide) (by decide)
  have hlog : (yf_patchkernel_run_patch tun_syms tun_mem (patchesForTunDevice_pre0708 16)).log =
      [Outcome.applied, Outcome.applied, Outcome.noMatch] := by decide
  refine ⟨by decide, by decide, by decide, hlog, ?_, h.2.2.2.1⟩
  rw [h.2.2.2.2.1, hlog]
  rfl

/-! ## Theorems: version gate boundaries and masks -/

/-- C11: the lower bound is inclusive. For a version with the major and minor
of `minVersion` the lower-limit block accepts iff `revisionMin == 0` or
`revision >= revisionMin` (for every bound, the not-all-zero ones included);
so the version equal to `minVersion` is accepted, and for `revisionMin >= 1`
the version one revision below it is rejected. -/
theorem lower_limit_inclusive (list : patchList) (revision : Nat) :
    (lowerLimitAccepts list list.majorMin list.minorMin revision = true ↔
        list.revisionMin = 0 ∨ revision ≥ list.revisionMin) ∧
      lowerLimitAccepts list list.majorMin list.minorMin list.revisionMin = true ∧
      (1 ≤ list.revisionMin →
        lowerLimitAccepts list list.majorMin list.minorMin (list.revisionMin - 1) = false) := by
  refine ⟨?_, ?_, ?_⟩
  · rw [lowerLimitAccepts_iff]
    omega
  · rw [lowerLimitAccepts_iff]
    omega
  · intro h
    rw [← Bool.not_eq_true, lowerLimitAccepts_iff]
    omega

/-- C11 at the bound (7, 0, 5): version 7.0-5 is accepted, version 7.0-4 is
rejected. -/
theorem lower_limit_inclusive_witness :
    (lowerBound_7_0_5.majorMin ≠ 0 ∨ lowerBound_7_0_5.minorMin ≠ 0 ∨
        lowerBound_7_0_5.revisionMin ≠ 0) ∧
      lowerLimitAccepts lowerBound_7_0_5 7 0 5 = true ∧
      lowerLimitAccepts lowerBound_7_0_5 7 0 4 = false :=
  ⟨by decide, (lower_limit_inclusive lowerBound_7_0_5 5).2.1,
    (lower_limit_inclusive lowerBound_7_0_5 5).2.2 (by decide)⟩

/-- C12: an all-zero bound is unbounded. With `minVersion = (0,0,0)` the version
check is the upper-limit block alone, with `maxVersion = (0,0,0)` it is the
lower-limit block alone, and with both all-zero every version is accepted. -/
theorem all_zero_bound_is_unbounded (list : patchList) (major minor revision : Nat) :
    (list.majorMin = 0 ∧ list.minorMin = 0 ∧ list.revisionMin = 0 →
        versionCheck list major minor revision =
          upperLimitAccepts list major minor revision) ∧
      (list.majorMax = 0 ∧ list.minorMax = 0 ∧ list.revisionMax = 0 →
        versionCheck list major minor revision =
          lowerLimitAccepts list major minor revision) ∧
      (list.majorMin = 0 ∧ list.minorMin = 0 ∧ list.revisionMin = 0 ∧
          list.majorMax = 0 ∧ list.minorMax = 0 ∧ list.revisionMax = 0 →
        versionCheck list major minor revision = true) := by
  refine ⟨?_, ?_, ?_⟩
  · rintro ⟨h1, h2, h3⟩
    simp [versionCheck, lowerLimitAccepts, h1, h2, h3]
  · rintro ⟨h1, h2, h3⟩
    simp [versionCheck, upperLimitAccepts, h1, h2, h3]
  · rintro ⟨h1, h2, h3, h4, h5, h6⟩
    simp [versionCheck, lowerLimitAccepts, upperLimitAccepts, h1, h2, h3, h4, h5, h6]

/-- C12 on the list with `minVersion = (7,8,0)` and all-zero `maxVersion`: the
version check is the lower-limit block; 7.9.0 is accepted, 7.7.0 is not. -/
theorem all_zero_bound_is_unbounded_witness :
    (scenarioA_list.majorMax = 0 ∧ scenarioA_list.minorMax = 0 ∧
        scenarioA_list.revisionMax = 0) ∧
      versionCheck scenarioA_list 7 9 0 = lowerLimitAccepts scenarioA_list 7 9 0 ∧
      versionCheck scenarioA_list 7 9 0 = true ∧
      versionCheck scenarioA_list 7 7 0 = false :=
  ⟨by decide, (all_zero_bound_is_unbounded scenarioA_list 7 9 0).2.1 (by decide), by decide,
    by decide⟩

/-- Two words that agree on every bit set in the mask have the same masked
value. -/
theorem land_eq_of_agree (mask w1 w2 : Nat)
    (h : ∀ i, mask.testBit i = true → w1.testBit i = w2.testBit i) :
    w1 &&& mask = w2 &&& mask := by
  apply Nat.eq_of_testBit_eq
  intro i
  rw [Nat.testBit_and, Nat.testBit_and]
  cases hm : mask.testBit i with
  | false => simp
  | true => rw [h i hm]

/-- C13 as stated fails for a descriptor with a non-zero OR mask: with
`andMask = 0xFF`, `orMask = 0x100`, `lookFor = 0x1AB` the match check accepts
the word `0xAB` although `(0xAB & 0xFF) == 0x1AB` is false, and the verify check
of the same descriptor accepts `0xCD` in the same way. -/
theorem mask_check_counterexample :
    matchCheck orMask_patch 0xAB = true ∧
      spec_maskMatch orMask_patch.andMask orMask_patch.lookFor 0xAB = false ∧
      verifyCheck orMask_patch 0xCD = true ∧
      spec_maskMatch orMask_patch.verifyAndMask orMask_patch.verifyValue 0xCD = false := by
  decide

/-- The scan of a single offset ends `applied` exactly when the patch target
does not hold `patchValue` yet, the word passes the match check and, with a
verify step, the verify word passes the verify check. -/
theorem forLoop_one_applied_iff (q : patchEntry) (mem : Memory) (cnt ptr : Nat) :
    (forLoop q mem cnt 1 ptr).outcome = Outcome.applied ↔
      mem (ptr + q.patchOffset) ≠ q.patchValue ∧
        (mem ptr &&& q.andMask) ||| q.orMask = q.lookFor ∧
        (q.verifyOffset = 0 ∨
          (mem (ptr + q.verifyOffset) &&& q.verifyAndMask) ||| q.verifyOrMask =
            q.verifyValue) := by
  have hsc : shortCircuit q mem ptr 0 = true ↔ mem (ptr + q.patchOffset) = q.patchValue := by
    simp [shortCircuit]
  have hfm : fullMatch q mem ptr 0 = true ↔
      ((mem ptr &&& q.andMask) ||| q.orMask = q.lookFor ∧
        (q.verifyOffset = 0 ∨
          (mem (ptr + q.verifyOffset) &&& q.verifyAndMask) ||| q.verifyOrMask =
            q.verifyValue)) := by
    simp [fullMatch, matchCheck, verifyCheck]
  cases h1 : shortCircuit q mem ptr 0 with
  | true =>
    rw [forLoop_short q mem cnt 0 ptr h1]
    have := hsc.mp h1
    simp [this]
  | false =>
    have hne : mem (ptr + q.patchOffset) ≠ q.patchValue := fun h => by
      rw [hsc.mpr h] at h1
      exact absurd h1 (by simp)
    cases h2 : fullMatch q mem ptr 0 with
    | true =>
      rw [forLoop_hit q mem cnt 0 ptr h1 h2]
      simp only [true_iff]
      exact ⟨hne, hfm.mp h2⟩
    | false =>
      rw [forLoop_skip q mem cnt 0 ptr h1 h2, forLoop]
      simp only [false_iff, not_and, reduceCtorEq]
      intro _ h3 h4
      have := hfm.mpr ⟨h3, h4⟩
      rw [h2] at this
      exact absurd this (by simp)

/-- C13 (amended): for every descriptor the match check accepts a word `w`
exactly when `((w & andMask) | orMask) == lookFor`, and the verify check accepts
exactly when `((w & verifyAndMask) | verifyOrMask) == verifyValue`; these are the
tests the scan of an offset applies. For a descriptor with `orMask == 0` the
match check therefore accepts exactly when `(w & andMask) == lookFor`, and for
one with `verifyOrMask == 0` the verify check accepts exactly when
`(w & verifyAndMask) == verifyValue`. For every descriptor, whatever its OR
masks, two words that agree on every bit set in the AND mask are accepted
alike by the match check, and likewise by the verify check. -/
theorem mask_check_correct (p : patchEntry) :
    (∀ w, matchCheck p w = true ↔ (w &&& p.andMask) ||| p.orMask = p.lookFor) ∧
      (∀ w, verifyCheck p w = true ↔
        (w &&& p.verifyAndMask) ||| p.verifyOrMask = p.verifyValue) ∧
      (∀ (mem : Memory) (cnt ptr : Nat),
        (forLoop p mem cnt 1 ptr).outcome = Outcome.applied ↔
          mem (ptr + p.patchOffset) ≠ p.patchValue ∧ matchCheck p (mem ptr) = true ∧
            (p.verifyOffset = 0 ∨ verifyCheck p (mem (ptr + p.verifyOffset)) = true)) ∧
      (p.orMask = 0 → ∀ w, matchCheck p w = spec_maskMatch p.andMask p.lookFor w) ∧
      (p.verifyOrMask = 0 →
        ∀ w, verifyCheck p w = spec_maskMatch p.verifyAndMask p.verifyValue w) ∧
      (∀ w1 w2, (∀ i, p.andMask.testBit i = true → w1.testBit i = w2.testBit i) →
        matchCheck p w1 = matchCheck p w2) ∧
      (∀ w1 w2, (∀ i, p.verifyAndMask.testBit i = true → w1.testBit i = w2.testBit i) →
        verifyCheck p w1 = verifyCheck p w2) := by
  have hm : ∀ w, matchCheck p w = true ↔ (w &&& p.andMask) ||| p.orMask = p.lookFor := by
    intro w
    simp [matchCheck]
  have hv : ∀ w, verifyCheck p w = true ↔
      (w &&& p.verifyAndMask) ||| p.verifyOrMask = p.verifyValue := by
    intro w
    simp [verifyCheck]
  refine ⟨hm, hv, ?_, ?_, ?_, ?_, ?_⟩
  · intro mem cnt ptr
    rw [forLoop_one_applied_iff, hm, hv]
  · intro h w
    simp [matchCheck, spec_maskMatch, h]
  · intro h w
    simp [verifyCheck, spec_maskMatch, h]
  · intro w1 w2 h
    simp only [matchCheck, land_eq_of_agree p.andMask w1 w2 h]
  · intro w1 w2 h
    simp only [verifyCheck, land_eq_of_agree p.verifyAndMask w1 w2 h]

/-- The amended C13 on Scenario C (`andMask = 0xFFFF0000`,
`lookFor = 0x8C040000`, `orMask = 0`): the word `0x8C04001C`, which differs from
`lookFor` only in masked-out bits, matches. -/
theorem mask_check_correct_witness :
    scenarioC_patch.orMask = 0 ∧
      (0x8C04001C : Nat) ≠ scenarioC_patch.lookFor ∧
      (0x8C04001C &&& scenarioC_patch.andMask) = scenarioC_patch.lookFor ∧
      matchCheck scenarioC_patch 0x8C04001C = true := by
  have h := (mask_check_correct scenarioC_patch).2.2.2.1 (by decide) 0x8C04001C
  refine ⟨by decide, by decide, by decide, ?_⟩
  rw [h]
  decide

/-! ## Theorems: restore over a table, the list loop of the apply pass -/

/-- C14 (the code does not do what the claim says): on a table that is not
empty `yf_patchkernel_restore` walks the one array `patch` points into and no
other, whatever the table holds. On the built-in table, after both lists have
been applied (`ip_forward` patched at 1002 by the first list,
`netif_receive_skb` patched at 2004 by the second), restore with `patch` on the
array of the first list restores address 1002 and leaves address 2004 patched:
the descriptor of the second list stays marked, its original word `0x00020336`
is not written back. With `patch` on the array of the second list it is
address 1002 that stays patched. -/
theorem restore_walks_one_array :
    (∀ (l : patchList) (list : List patchList) (patch : List patchEntry) (mem : Memory),
        yf_patchkernel_restore (l :: list) patch mem = restoreWalk patch mem) ∧
      tun_after_0708.log = [Outcome.applied, Outcome.notFound] ∧
      tun_after_both.log = [Outcome.alreadyApplied, Outcome.applied, Outcome.noMatch] ∧
      tun_after_both.patches.map (fun p => (p.isPatched, p.patchAddress, p.originalValue)) =
        [(false, 0, 0), (true, 2004, 0x00020336), (false, 0, 0)] ∧
      tun_after_both.mem 1002 = 0x24020000 ∧ tun_after_both.mem 2004 = 0 ∧
      (yf_patchkernel_restore (entries 16) tun_after_0708.patches tun_after_both.mem).1 1002 =
        0x8C820010 ∧
      (yf_patchkernel_restore (entries 16) tun_after_0708.patches tun_after_both.mem).1 2004 =
        0 ∧
      (yf_patchkernel_restore (entries 16) tun_after_both.patches tun_after_both.mem).1 1002 =
        0x24020000 := by
  refine ⟨fun l list patch mem => restore_cons l list patch mem, ?_, ?_, ?_, ?_, ?_, ?_, ?_, ?_⟩ <;>
    decide

/-- On a table with two or more lists the list loop never ends: `list` stays on
the first entry, `next` is `list + 1` at the end of every pass, and the entry
behind the first is not the end marker. -/
theorem listLoop_two_lists (ksym : String → Nat) (major minor revision : Nat) :
    ∀ (fuel next : Nat) (mem : Memory) (table : List patchList) (patchCount : Nat),
      next ≤ 1 → 2 ≤ table.length →
      listLoop ksym major minor revision 0 fuel next mem table patchCount = none := by
  intro fuel
  induction fuel with
  | zero =>
    intro next mem table patchCount _ _
    rw [listLoop]
  | succ fuel ih =>
    intro next mem table patchCount hnext hlen
    have hlt : next < table.length := by omega
    rw [listLoop]
    simp only [hlt, if_true]
    match table, hlen with
    | l :: l2 :: rest, _ =>
      simp only [List.get?_cons_zero]
      split_ifs
      · exact ih (0 + 1) _ _ _ (by omega) (by simp)
      · exact ih (0 + 1) _ _ _ (by omega) (by simp)

/-- On a table with a single list the list loop makes one pass: the list is
checked against the version and, when accepted, handed to the engine once. -/
theorem listLoop_single_list (ksym : String → Nat) (major minor revision fuel : Nat)
    (mem : Memory) (l : patchList) :
    listLoop ksym major minor revision 0 (fuel + 2) 0 mem [l] 0 =
      if versionCheck l major minor revision then
        some ⟨(yf_patchkernel_run_patch ksym mem l.patches).mem,
          [{ l with patches := (yf_patchkernel_run_patch ksym mem l.patches).patches }],
          some (yf_patchkernel_run_patch ksym mem l.patches).patches_applied⟩
      else some ⟨mem, [l], some 0⟩ := by
  rw [listLoop]
  simp only [List.length_singleton, Nat.lt_one_iff, if_true, List.get?_cons_zero]
  split_ifs
  · rw [listLoop]
    simp
  · rw [listLoop]
    simp

/-- C15 (the code does not do what the claim says): "7.8.1" is a version string
the parser accepts (as 7.8.0), and the first list of the built-in table
`entries` accepts that version; but on `entries`, which holds two lists,
`yf_patchkernel_patch` never finishes, whatever bound is put on the number of
loop passes: every pass checks and applies the first list again, the second
list is never reached and nothing is returned. Only a table with a single list
is worked through (one pass), and even then the count ends in the local
`patchCount`, the function having no `return` statement. -/
theorem patch_never_returns_on_entries (ksym : String → Nat) (sk n fuel : Nat)
    (out : VersionOut) (mem : Memory) :
    yf_patchkernel_parse_firmwarestring (n + 6) (some "7.8.1".toList) out =
        (true, ⟨7, 8, 0, 0⟩) ∧
      (∃ l, (entries sk).get? 0 = some l ∧ versionCheck l 7 8 0 = true) ∧
      yf_patchkernel_patch ksym (n + 6) (some "7.8.1".toList) out fuel mem (entries sk) =
        none ∧
      yf_patchkernel_patch ksym (n + 6) (some "7.8.1".toList) out (fuel + 2) mem
          [scenarioA_list] =
        some ⟨(yf_patchkernel_run_patch ksym mem scenarioA_list.patches).mem,
          [{ scenarioA_list with
            patches := (yf_patchkernel_run_patch ksym mem scenarioA_list.patches).patches }],
          some (yf_patchkernel_run_patch ksym mem scenarioA_list.patches).patches_applied⟩ := by
  have hparse : yf_patchkernel_parse_firmwarestring (n + 6) (some "7.8.1".toList) out =
      (true, ⟨7, 8, 0, 0⟩) := by
    rw [parse_eq_parseLoop _ _ _ (by decide) (by simp)]
    rfl
  refine ⟨hparse, ⟨_, rfl, by simp [versionCheck, lowerLimitAccepts, upperLimitAccepts]⟩,
    ?_, ?_⟩
  · unfold yf_patchkernel_patch
    simp only [hparse, if_true]
    exact listLoop_two_lists ksym 7 8 0 fuel 0 mem (entries sk) 0 (by omega) (by simp [entries])
  · unfold yf_patchkernel_patch
    simp only [hparse, if_true]
    rw [listLoop_single_list]
    have hv : versionCheck scenarioA_list 7 8 0 = true := by decide
    simp only [hv, if_true]

/-- The apply loop over a descriptor array handles every entry of the array:
the result has one descriptor and one outcome per entry. -/
theorem whileLoop_length (ksym : String → Nat) (patches : List patchEntry) (mem : Memory)
    (cnt : Nat) :
    (whileLoop ksym patches mem cnt).patches.length = patches.length ∧
      (whileLoop ksym patches mem cnt).log.length = patches.length := by
  induction patches generalizing mem cnt with
  | nil => simp [whileLoop]
  | cons p rest ih =>
    rw [whileLoop]
    simp [ih]

/-- C16 (the code does not do what the claim says): on every table with two or
more lists, for every version and every bound on the number of passes, the list
loop of `yf_patchkernel_patch` has not ended: `list` is never advanced. The
part of the claim about one list holds: `yf_patchkernel_run_patch` is total and
produces an outcome for every descriptor up to the end marker, also after a
`notFound` or `noMatch`. -/
theorem list_loop_never_ends (ksym : String → Nat) (major minor revision fuel : Nat)
    (mem : Memory) (l1 l2 : patchList) (rest : List patchList) (patches : List patchEntry) :
    listLoop ksym major minor revision 0 fuel 0 mem (l1 :: l2 :: rest) 0 = none ∧
      (yf_patchkernel_run_patch ksym mem patches).log.length = patches.length ∧
      (yf_patchkernel_run_patch ksym mem patches).patches.length = patches.length ∧
      (yf_patchkernel_run_patch tun_syms tun_mem (patchesForTunDevice_0708 16)).log =
        [Outcome.applied, Outcome.notFound] ∧
      (yf_patchkernel_run_patch tun_syms tun_mem
        (patchesForTunDevice_0708 16 ++ patchesForTunDevice_pre0708 16)).log =
        [Outcome.applied, Outcome.notFound, Outcome.alreadyApplied, Outcome.applied,
          Outcome.noMatch] := by
  refine ⟨listLoop_two_lists ksym major minor revision fuel 0 mem _ 0 (by omega) (by simp),
    (whileLoop_length ksym patches mem 0).2, (whileLoop_length ksym patches mem 0).1, ?_, ?_⟩ <;>
    decide

/-! ## Theorems: precedence of the short-circuit check -/

/-- A short-circuited offset `j` with no full match before it ends the loop
`alreadyApplied`, at `j` or at a short-circuited offset before it. -/
theorem forLoop_stops_by (q : patchEntry) (mem : Memory) (cnt : Nat) :
    ∀ (j n ptr : Nat), j < n → shortCircuit q mem ptr j = true →
      (∀ i, i < j → fullMatch q mem ptr i = false) →
      forLoop q mem cnt n ptr = ⟨mem, q, cnt, Outcome.alreadyApplied⟩ := by
  intro j
  induction j with
  | zero =>
    intro n ptr hj hsc _
    obtain ⟨m, rfl⟩ : ∃ m, n = m + 1 := ⟨n - 1, by omega⟩
    exact forLoop_short q mem cnt m ptr hsc
  | succ j ih =>
    intro n ptr hj hsc hmin
    obtain ⟨m, rfl⟩ : ∃ m, n = m + 1 := ⟨n - 1, by omega⟩
    cases h0 : shortCircuit q mem ptr 0 with
    | true => exact forLoop_short q mem cnt m ptr h0
    | false =>
      rw [forLoop_skip q mem cnt m ptr h0 (hmin 0 (Nat.succ_pos j))]
      exact ih m (ptr + 1) (by omega) (by rw [shortCircuit_succ]; exact hsc)
        (fun i hi => by rw [fullMatch_succ]; exact hmin (i + 1) (by omega))

/-- C18: precedence of the short-circuit check. When the symbol resolves, the
patch target of an offset `j < maxOffset` already holds `patchValue`, and no
offset before `j` passes match and verify, the scan ends `alreadyApplied`,
whether or not offset `j` itself passes match and verify: memory, the counter
and the descriptor (but for `startAddress`) are as before. The scan does not go
past `j` (scanning the offsets `0 .. j` only gives the same result), and it
passes all offsets before `j` when none of them is short-circuited. -/
theorem short_circuit_precedence (ksym : String → Nat) (mem : Memory) (p : patchEntry)
    (cnt j : Nat) (hsym : ksym p.fname ≠ 0) (hj : j < p.maxOffset)
    (hsc : shortCircuit p mem (cursor ksym p) j = true)
    (hmin : ∀ i, i < j → fullMatch p mem (cursor ksym p) i = false) :
    scanEntry ksym mem p cnt =
        ⟨mem, { p with startAddress := ksym p.fname }, cnt, Outcome.alreadyApplied⟩ ∧
      forLoop { p with startAddress := ksym p.fname } mem cnt (j + 1) (cursor ksym p) =
        ⟨mem, { p with startAddress := ksym p.fname }, cnt, Outcome.alreadyApplied⟩ ∧
      ((∀ i, i < j → shortCircuit p mem (cursor ksym p) i = false) →
        forLoop { p with startAddress := ksym p.fname } mem cnt j (cursor ksym p) =
          ⟨mem, { p with startAddress := ksym p.fname }, cnt, Outcome.noMatch⟩) := by
  refine ⟨?_, ?_, ?_⟩
  · unfold scanEntry
    simp only [hsym, if_false]
    exact forLoop_stops_by { p with startAddress := ksym p.fname } mem cnt j p.maxOffset
      (ksym p.fname + p.startOffset) hj hsc hmin
  · exact forLoop_stops_by { p with startAddress := ksym p.fname } mem cnt j (j + 1)
      (cursor ksym p) (Nat.lt_succ_self j) hsc hmin
  · intro hno
    exact forLoop_noMatch { p with startAddress := ksym p.fname } mem cnt j (cursor ksym p)
      (fun i hi => ⟨hmin i hi, hno i hi⟩)

/-- C18 on a word that both matches and already holds the replacement: offset 2
passes the match check, yet the scan ends `alreadyApplied` there and writes
nothing. -/
theorem short_circuit_precedence_witness :
    sameWord_syms precedence_patch.fname ≠ 0 ∧
      shortCircuit precedence_patch precedence_mem (cursor sameWord_syms precedence_patch) 2 =
        true ∧
      fullMatch precedence_patch precedence_mem (cursor sameWord_syms precedence_patch) 2 =
        true ∧
      (scanEntry sameWord_syms precedence_mem precedence_patch 0).outcome =
        Outcome.alreadyApplied ∧
      (scanEntry sameWord_syms precedence_mem precedence_patch 0).patches_applied = 0 ∧
      (scanEntry sameWord_syms precedence_mem precedence_patch 0).patch.isPatched = false := by
  have h := (short_circuit_precedence sameWord_syms precedence_mem precedence_patch 0 2
    (by decide) (by decide) (by decide) (by decide)).1
  refine ⟨by decide, by decide, by decide, ?_, ?_, ?_⟩
  · rw [h]
  · rw [h]
  · rw [h]
    rfl

/-! ## Theorems: outputs of a successful parse -/

/-- C20 (the code does not do what the claim says): a version string that ends
right behind a delimiter is parsed successfully although the fields behind it
are never assigned. "7." succeeds with only `major` written, "7.8." with only
`major` and `minor`, "7.8.3-" with `dirty` left as it was; so two successful
runs on "7.8." that start from different contents of the out-parameters return
different versions, and `yf_patchkernel_patch`, whose locals are not
initialised, applies a list with `minVersion = (7,8,5)` or skips it depending
on what its local `revision` happened to hold. -/
theorem parse_success_leaves_outputs_unassigned (n : Nat) (out : VersionOut) :
    yf_patchkernel_parse_firmwarestring (n + 3) (some "7.".toList) out =
        (true, ⟨7, out.minor, out.revision, out.dirty⟩) ∧
      yf_patchkernel_parse_firmwarestring (n + 5) (some "7.8.".toList) out =
        (true, ⟨7, 8, out.revision, out.dirty⟩) ∧
      yf_patchkernel_parse_firmwarestring (n + 7) (some "7.8.3-".toList) out =
        (true, ⟨7, 8, 3, out.dirty⟩) ∧
      yf_patchkernel_parse_firmwarestring (n + 5) (some "7.8.".toList) ⟨0, 0, 0, 0⟩ =
        (true, ⟨7, 8, 0, 0⟩) ∧
      yf_patchkernel_parse_firmwarestring (n + 5) (some "7.8.".toList) ⟨0, 0, 5, 1⟩ =
        (true, ⟨7, 8, 5, 1⟩) ∧
      (yf_patchkernel_patch scenarioC_syms 128 (some "7.8.".toList) ⟨0, 0, 0, 0⟩ 2
          scenarioC_mem [revisionGate_list]).map (fun r => (r.patchCount, r.mem 1005)) =
        some (some 0, 0x11) ∧
      (yf_patchkernel_patch scenarioC_syms 128 (some "7.8.".toList) ⟨0, 0, 5, 0⟩ 2
          scenarioC_mem [revisionGate_list]).map (fun r => (r.patchCount, r.mem 1005)) =
        some (some 1, 0x24020000) := by
  refine ⟨?_, ?_, ?_, ?_, ?_, by decide, by decide⟩ <;>
  · rw [parse_eq_parseLoop _ _ _ (by decide) (by simp)]
    rfl

/-! ## Theorems: the verify read and the scan window -/

theorem allPatches_append (t1 t2 : List patchList) :
    allPatches (t1 ++ t2) = allPatches t1 ++ allPatches t2 := by
  induction t1 with
  | nil => rfl
  | cons l t1 ih => simp [allPatches, ih]

/-- A list of the table splits the table around its position. -/
theorem table_split (table : List patchList) (i : Nat) (l : patchList)
    (h : table.get? i = some l) :
    ∃ before after, table = before ++ l :: after ∧
      ∀ l2, table.set i l2 = before ++ l2 :: after := by
  induction table generalizing i with
  | nil => simp at h
  | cons x rest ih =>
    cases i with
    | zero =>
      simp only [List.get?_cons_zero, Option.some.injEq] at h
      subst h
      exact ⟨[], rest, rfl, fun l2 => rfl⟩
    | succ i =>
      simp only [List.get?_cons_succ] at h
      obtain ⟨before, after, h1, h2⟩ := ih i h
      refine ⟨x :: before, after, by rw [h1]; rfl, fun l2 => ?_⟩
      simp [List.set, h2]

theorem mem_allPatches (table : List patchList) (d : patchEntry) :
    d ∈ allPatches table ↔ ∃ l ∈ table, d ∈ l.patches := by
  induction table with
  | nil => simp [allPatches]
  | cons l rest ih => simp [allPatches, ih]

/-- Descriptors with disjoint scan regions share no address. -/
theorem disjoint_not_inRegion (ksym : String → Nat) (p q : patchEntry) (a : Nat)
    (h : disjointRegions ksym p q = true ∨ disjointRegions ksym q p = true)
    (hp : inRegion ksym p a) : ¬ inRegion ksym q a := by
  intro hq
  simp only [inRegion] at hp hq
  simp only [disjointRegions, Bool.or_eq_true, Bool.and_eq_true, beq_iff_eq,
    decide_eq_true_eq] at h
  omega

theorem inRegion_static (ksym : String → Nat) (p q : patchEntry) (a : Nat)
    (h : staticPart q = staticPart p) : inRegion ksym q a ↔ inRegion ksym p a := by
  have h1 : inRegion ksym (staticPart q) a ↔ inRegion ksym q a := Iff.rfl
  have h2 : inRegion ksym (staticPart p) a ↔ inRegion ksym p a := Iff.rfl
  rw [← h1, ← h2, h]

theorem regionFits_static (ksym : String → Nat) (p q : patchEntry)
    (h : staticPart q = staticPart p) : regionFits ksym q = regionFits ksym p := by
  have h1 : regionFits ksym (staticPart q) = regionFits ksym q := rfl
  have h2 : regionFits ksym (staticPart p) = regionFits ksym p := rfl
  rw [← h1, ← h2, h]

theorem compatible_static_left (ksym : String → Nat) (p q e : patchEntry)
    (h : staticPart q = staticPart p) : compatible ksym q e = compatible ksym p e := by
  have h1 : compatible ksym (staticPart q) e = compatible ksym q e := rfl
  have h2 : compatible ksym (staticPart p) e = compatible ksym p e := rfl
  rw [← h1, ← h2, h]

theorem compatible_static_right (ksym : String → Nat) (p q e : patchEntry)
    (h : staticPart q = staticPart p) : compatible ksym e q = compatible ksym e p := by
  have h1 : compatible ksym e (staticPart q) = compatible ksym e q := rfl
  have h2 : compatible ksym e (staticPart p) = compatible ksym e p := rfl
  rw [← h1, ← h2, h]

/-- A scan leaves the static part of its descriptor alone. -/
theorem scanEntry_static (ksym : String → Nat) (mem : Memory) (p : patchEntry) (cnt : Nat) :
    staticPart (scanEntry ksym mem p cnt).patch = staticPart p := by
  unfold scanEntry
  by_cases hsym : ksym p.fname = 0
  · simp [hsym]
  · simp only [hsym, if_false]
    rcases forLoop_cases { p with startAddress := ksym p.fname } mem cnt p.maxOffset
        (ksym p.fname + p.startOffset) with
      ⟨k, _, _, _, _, h4⟩ | ⟨k, _, _, _, h4⟩ | ⟨_, h4⟩ <;>
    · rw [h4]
      rfl

/-- The two ways a scan can end: without a write, the mark and the patch address
of the descriptor as they were; or with a write of `patchValue` to a word of the
scan region that did not hold it, the descriptor marked applied at that word. -/
theorem scanEntry_step (ksym : String → Nat) (mem : Memory) (p : patchEntry) (cnt : Nat) :
    ((scanEntry ksym mem p cnt).mem = mem ∧
        (scanEntry ksym mem p cnt).patch.isPatched = p.isPatched ∧
        (scanEntry ksym mem p cnt).patch.patchAddress = p.patchAddress) ∨
      ∃ a, inRegion ksym p a ∧ mem a ≠ p.patchValue ∧
        (scanEntry ksym mem p cnt).mem = Function.update mem a p.patchValue ∧
        (scanEntry ksym mem p cnt).patch.isPatched = true ∧
        (scanEntry ksym mem p cnt).patch.patchAddress = a := by
  unfold scanEntry
  by_cases hsym : ksym p.fname = 0
  · left
    simp [hsym]
  · simp only [hsym, if_false]
    rcases forLoop_cases { p with startAddress := ksym p.fname } mem cnt p.maxOffset
        (ksym p.fname + p.startOffset) with
      ⟨k, hk, _, h2, _, h4⟩ | ⟨k, _, _, _, h4⟩ | ⟨_, h4⟩
    · right
      refine ⟨ksym p.fname + p.startOffset + k + p.patchOffset, ⟨hsym, ?_, ?_⟩, ?_, ?_⟩
      · simp only [cursor]
        omega
      · simp only [regionEnd, cursor]
        omega
      · intro heq
        simp [shortCircuit, heq] at h2
      · rw [h4]
        exact ⟨rfl, rfl, rfl⟩
    · left
      rw [h4]
      exact ⟨rfl, rfl, rfl⟩
    · left
      rw [h4]
      exact ⟨rfl, rfl, rfl⟩

/-- A pairwise relation on a list, read at one position. -/
theorem pairwise_at {R : patchEntry → patchEntry → Prop} (X Y : List patchEntry)
    (p : patchEntry) (h : (X ++ p :: Y).Pairwise R) :
    (∀ e ∈ X, R e p) ∧ (∀ e ∈ Y, R p e) := by
  rw [List.pairwise_append, List.pairwise_cons] at h
  exact ⟨fun e he => h.2.2 e he p (List.mem_cons_self p Y), h.2.1.1⟩

/-- A pairwise relation survives the replacement of one entry by an entry that
stands in the relation wherever the old one did. -/
theorem pairwise_replace {R : patchEntry → patchEntry → Prop} (X Y : List patchEntry)
    (p p2 : patchEntry) (h : (X ++ p :: Y).Pairwise R)
    (h1 : ∀ e ∈ X, R e p → R e p2) (h2 : ∀ e ∈ Y, R p e → R p2 e) :
    (X ++ p2 :: Y).Pairwise R := by
  rw [List.pairwise_append, List.pairwise_cons] at h ⊢
  obtain ⟨hX, ⟨hpY, hY⟩, hXY⟩ := h
  refine ⟨hX, ⟨fun e he => h2 e he (hpY e he), hY⟩, ?_⟩
  intro a ha b hb
  rcases List.mem_cons.mp hb with rfl | hb
  · exact h1 a ha (hXY a ha p (List.mem_cons_self p Y))
  · exact hXY a ha b (List.mem_cons_of_mem p hb)

/-- A word of the scan region of `p` that does not hold `p.patchValue` is the
patch address of no sound, marked descriptor that is compatible with `p`. -/
theorem compatible_target (ksym : String → Nat) (mem : Memory) (p d : patchEntry) (a : Nat)
    (h : compatible ksym p d = true ∨ compatible ksym d p = true)
    (hp : inRegion ksym p a) (hne : mem a ≠ p.patchValue)
    (hd : Sound ksym mem d) (hm : d.isPatched = true) : d.patchAddress ≠ a := by
  intro heq
  obtain ⟨hin, hval⟩ := hd hm
  rw [heq] at hin hval
  simp only [compatible, Bool.or_eq_true, beq_iff_eq] at h
  rcases h with (h | h) | (h | h)
  · exact disjoint_not_inRegion ksym p d a (Or.inl h) hp hin
  · exact hne (by rw [hval, h])
  · exact disjoint_not_inRegion ksym p d a (Or.inr h) hp hin
  · exact hne (by rw [hval, h])

/-- The invariant survives the replacement of one descriptor `p` by `p2` and of
the memory by `mem2`, when `p2` has the static part of `p` and is sound, and
every other marked descriptor keeps its word and is not marked at the patch
address of `p2`. -/
theorem poolInv_replace (ksym : String → Nat) (mem mem2 : Memory) (X Y : List patchEntry)
    (p p2 : patchEntry) (h : PoolInv ksym mem (X ++ p :: Y))
    (hstatic : staticPart p2 = staticPart p) (hsound : Sound ksym mem2 p2)
    (hothers : ∀ e, e ∈ X ∨ e ∈ Y → e.isPatched = true →
      mem2 e.patchAddress = mem e.patchAddress ∧
        (p2.isPatched = true → e.patchAddress ≠ p2.patchAddress)) :
    PoolInv ksym mem2 (X ++ p2 :: Y) := by
  obtain ⟨hc, hf, hs, hd⟩ := h
  refine ⟨?_, ?_, ?_, ?_⟩
  · apply pairwise_replace X Y p p2 hc
    · intro e _ he
      rw [compatible_static_right ksym p p2 e hstatic]
      exact he
    · intro e _ he
      rw [compatible_static_left ksym p p2 e hstatic]
      exact he
  · intro d hd2
    simp only [List.mem_append, List.mem_cons] at hd2
    rcases hd2 with hd2 | rfl | hd2
    · exact hf d (by simp [hd2])
    · rw [regionFits_static ksym p d hstatic]
      exact hf p (by simp)
    · exact hf d (by simp [hd2])
  · have key : ∀ e, e ∈ X ∨ e ∈ Y → Sound ksym mem2 e := by
      intro e he hm
      have hse : Sound ksym mem e := hs e (by
        simp only [List.mem_append, List.mem_cons]
        tauto)
      obtain ⟨h1, h2⟩ := hse hm
      exact ⟨h1, by rw [(hothers e he hm).1, h2]⟩
    intro d hd2
    simp only [List.mem_append, List.mem_cons] at hd2
    rcases hd2 with hd2 | rfl | hd2
    · exact key d (Or.inl hd2)
    · exact hsound
    · exact key d (Or.inr hd2)
  · apply pairwise_replace X Y p p2 hd
    · intro e he _ hm1 hm2
      exact (hothers e (Or.inl he) hm1).2 hm2
    · intro e he _ hm1 hm2
      exact ((hothers e (Or.inr he) hm2).2 hm1).symm

/-- The scan of one descriptor keeps the invariant of the pool. -/
theorem scanEntry_pool (ksym : String → Nat) (X Y : List patchEntry) (p : patchEntry)
    (mem : Memory) (cnt : Nat) (h : PoolInv ksym mem (X ++ p :: Y)) :
    PoolInv ksym (scanEntry ksym mem p cnt).mem (X ++ (scanEntry ksym mem p cnt).patch :: Y) := by
  have hstatic := scanEntry_static ksym mem p cnt
  have hval0 : (staticPart (scanEntry ksym mem p cnt).patch).patchValue =
      (staticPart p).patchValue := congrArg patchEntry.patchValue hstatic
  have hval : (scanEntry ksym mem p cnt).patch.patchValue = p.patchValue := hval0
  have hsp : Sound ksym mem p := h.2.2.1 p (by simp)
  have hcomp := pairwise_at X Y p h.1
  have hdist := pairwise_at X Y p h.2.2.2
  have hse : ∀ e, e ∈ X ∨ e ∈ Y → Sound ksym mem e := by
    intro e he
    apply h.2.2.1 e
    simp only [List.mem_append, List.mem_cons]
    tauto
  rcases scanEntry_step ksym mem p cnt with ⟨h1, h2, h3⟩ | ⟨a, ha, hne, h1, h2, h3⟩
  · rw [h1]
    apply poolInv_replace ksym mem mem X Y p _ h hstatic
    · intro hm
      rw [h2] at hm
      obtain ⟨h4, h5⟩ := hsp hm
      rw [h3, hval]
      exact ⟨(inRegion_static ksym p _ _ hstatic).mpr h4, h5⟩
    · intro e he hm
      refine ⟨rfl, fun hm2 => ?_⟩
      rw [h2] at hm2
      rw [h3]
      rcases he with he | he
      · exact hdist.1 e he hm hm2
      · exact (hdist.2 e he hm2 hm).symm
  · rw [h1]
    apply poolInv_replace ksym mem _ X Y p _ h hstatic
    · intro _
      rw [h3, hval]
      exact ⟨(inRegion_static ksym p _ _ hstatic).mpr ha, Function.update_same a _ mem⟩
    · intro e he hm
      have hea : e.patchAddress ≠ a := by
        rcases he with he | he
        · exact compatible_target ksym mem p e a (Or.inr (hcomp.1 e he)) ha hne
            (hse e (Or.inl he)) hm
        · exact compatible_target ksym mem p e a (Or.inl (hcomp.2 e he)) ha hne
            (hse e (Or.inr he)) hm
      refine ⟨Function.update_noteq hea _ _, fun _ => ?_⟩
      rw [h3]
      exact hea

/-- The apply loop over an array `B` keeps the invariant of the pool the array
is part of. -/
theorem whileLoop_pool (ksym : String → Nat) (B C : List patchEntry) :
    ∀ (X : List patchEntry) (mem : Memory) (cnt : Nat),
      PoolInv ksym mem (X ++ (B ++ C)) →
      PoolInv ksym (whileLoop ksym B mem cnt).mem
        (X ++ ((whileLoop ksym B mem cnt).patches ++ C)) := by
  induction B with
  | nil =>
    intro X mem cnt h
    simpa [whileLoop] using h
  | cons p rest ih =>
    intro X mem cnt h
    rw [whileLoop]
    simp only
    have h1 := scanEntry_pool ksym X (rest ++ C) p mem cnt (by simpa using h)
    have h2 := ih (X ++ [(scanEntry ksym mem p cnt).patch]) (scanEntry ksym mem p cnt).mem
      (scanEntry ksym mem p cnt).patches_applied (by simpa using h1)
    simpa using h2

/-- The restore walk over an array `B` keeps the invariant of the pool the
array is part of. -/
theorem restoreWalk_pool (ksym : String → Nat) (B C : List patchEntry) :
    ∀ (X : List patchEntry) (mem : Memory),
      PoolInv ksym mem (X ++ (B ++ C)) →
      PoolInv ksym (restoreWalk B mem).1 (X ++ ((restoreWalk B mem).2 ++ C)) := by
  induction B with
  | nil =>
    intro X mem h
    simpa [restoreWalk] using h
  | cons p rest ih =>
    intro X mem h
    have h0 : PoolInv ksym mem (X ++ p :: (rest ++ C)) := by simpa using h
    rw [restoreWalk]
    by_cases hp : p.isPatched = true
    · simp only [hp, if_true]
      have hdist := pairwise_at X (rest ++ C) p h0.2.2.2
      have h1 : PoolInv ksym (Function.update mem p.patchAddress p.originalValue)
          (X ++ { p with isPatched := false } :: (rest ++ C)) := by
        apply poolInv_replace ksym mem _ X (rest ++ C) p { p with isPatched := false } h0 rfl
        · intro hm
          exact absurd hm (by simp)
        · intro e he hm
          have hea : e.patchAddress ≠ p.patchAddress := by
            rcases he with he | he
            · exact hdist.1 e he hm hp
            · exact (hdist.2 e he hp hm).symm
          exact ⟨Function.update_noteq hea _ _, fun hm2 => absurd hm2 (by simp)⟩
      have h2 := ih (X ++ [{ p with isPatched := false }]) _ (by simpa using h1)
      simpa using h2
    · simp only [hp, Bool.false_eq_true, if_false]
      have h2 := ih (X ++ [p]) mem (by simpa using h0)
      simpa using h2

/-- Every pass keeps the invariant of the descriptors of the table. -/
theorem runPass_pool (ksym : String → Nat) (pass : Pass) (st : EngineState)
    (h : PoolInv ksym st.mem (allPatches st.table)) :
    PoolInv ksym (runPass ksym pass st).mem (allPatches (runPass ksym pass st).table) := by
  cases pass with
  | apply i =>
    rw [runPass]
    cases hl : st.table.get? i with
    | none => exact h
    | some l =>
      obtain ⟨before, after, h1, h2⟩ := table_split st.table i l hl
      simp only [h2]
      rw [h1] at h
      simp only [allPatches_append, allPatches] at h ⊢
      exact whileLoop_pool ksym l.patches (allPatches after) (allPatches before) st.mem 0 h
  | restore i =>
    rw [runPass]
    cases hl : st.table.get? i with
    | none => exact h
    | some l =>
      obtain ⟨before, after, h1, h2⟩ := table_split st.table i l hl
      have hne : ∃ x xs, st.table = x :: xs := by
        cases hst : st.table with
        | nil => rw [hst] at hl; simp at hl
        | cons x xs => exact ⟨x, xs, rfl⟩
      obtain ⟨x, xs, hx⟩ := hne
      have hr : yf_patchkernel_restore st.table l.patches st.mem =
          restoreWalk l.patches st.mem := by
        rw [hx]
        exact restore_cons x xs l.patches st.mem
      simp only [h2, hr]
      rw [h1] at h
      simp only [allPatches_append, allPatches] at h ⊢
      exact restoreWalk_pool ksym l.patches (allPatches after) (allPatches before) st.mem h

theorem runPasses_pool (ksym : String → Nat) (passes : List Pass) :
    ∀ st : EngineState, PoolInv ksym st.mem (allPatches st.table) →
      PoolInv ksym (runPasses ksym passes st).mem
        (allPatches (runPasses ksym passes st).table) := by
  induction passes with
  | nil =>
    intro st h
    exact h
  | cons pass rest ih =>
    intro st h
    rw [runPasses]
    exact ih _ (runPass_pool ksym pass st h)

/-- C17 as stated fails: starting with no descriptor marked, one apply pass over
a list whose two descriptors patch the same word (1 to 2, then 2 to 3) leaves
the first descriptor marked applied with `patchAddress = 100` and
`patchValue = 2`, while the word at address 100 is 3. -/
theorem applied_invariant_counterexample :
    (∀ l ∈ [sameWord_list], ∀ d ∈ l.patches, d.isPatched = false) ∧
      (∃ d ∈ allPatches (runPasses sameWord_syms [Pass.apply 0]
          ⟨sameWord_mem, [sameWord_list]⟩).table,
        d.isPatched = true ∧ d.patchAddress = 100 ∧ d.patchValue = 2 ∧
          (runPasses sameWord_syms [Pass.apply 0] ⟨sameWord_mem, [sameWord_list]⟩).mem
            d.patchAddress = 3) := by
  refine ⟨by decide, { sameWord_patch 2 with
    startAddress := 100, patchAddress := 100, originalValue := 1, isPatched := true }, ?_⟩
  decide

/-- C17 (amended): when the scan region of every descriptor of the table whose
symbol resolves lies inside the address space of the 32-bit target
(`regionFits`: no address a scan forms wraps around), and any two descriptors
of the table either have disjoint scan regions or write the same replacement
value (`compatible`), then, starting from a state in which no descriptor is
marked applied, after any sequence of apply passes (`yf_patchkernel_run_patch`
over any list of the table) and restore passes (`yf_patchkernel_restore` with
`patch` at the start of any list), every descriptor with `isPatched` set has a
`patchAddress` inside the address space and the memory word there equal to its
`patchValue`. -/
theorem applied_descriptors_hold_patchValue (ksym : String → Nat) (passes : List Pass)
    (st : EngineState)
    (hclean : ∀ l ∈ st.table, ∀ d ∈ l.patches, d.isPatched = false)
    (hfit : ∀ d ∈ allPatches st.table, regionFits ksym d = true)
    (hcompat : (allPatches st.table).Pairwise (fun p q => compatible ksym p q = true)) :
    ∀ l ∈ (runPasses ksym passes st).table, ∀ d ∈ l.patches, d.isPatched = true →
      d.patchAddress < addressWords ∧
        (runPasses ksym passes st).mem d.patchAddress = d.patchValue := by
  intro l hl d hd hp
  have hcl : ∀ e ∈ allPatches st.table, e.isPatched = false := by
    intro e he
    obtain ⟨l2, hl2, he2⟩ := (mem_allPatches st.table e).mp he
    exact hclean l2 hl2 e he2
  have h0 : PoolInv ksym st.mem (allPatches st.table) := by
    refine ⟨hcompat, hfit, ?_, ?_⟩
    · intro e he hpe
      rw [hcl e he] at hpe
      exact absurd hpe (by simp)
    · apply List.Pairwise.imp_of_mem _ hcompat
      intro a b ha _ _ hpa
      rw [hcl a ha] at hpa
      exact absurd hpa (by simp)
  obtain ⟨_, hf, hs, _⟩ := runPasses_pool ksym passes st h0
  have hmem : d ∈ allPatches (runPasses ksym passes st).table :=
    (mem_allPatches _ d).mpr ⟨l, hl, hd⟩
  obtain ⟨hin, hval⟩ := hs d hmem hp
  refine ⟨?_, hval⟩
  have hfd := hf d hmem
  simp only [inRegion] at hin
  simp only [regionFits, Bool.or_eq_true, beq_iff_eq, decide_eq_true_eq] at hfd
  omega

/-- The amended C17 on the built-in table `entries`, whose two lists both hold
a descriptor for `ip_forward`: after the passes of `tun_passes` the two
descriptors of the list "since FRITZ!OS 07.08" are unmarked, two descriptors of
the other list are marked applied, and the words at their patch addresses,
1002 and 2004, hold their replacement values. -/
theorem applied_descriptors_hold_patchValue_witness :
    (∀ l ∈ entries 16, ∀ d ∈ l.patches, d.isPatched = false) ∧
      (∀ d ∈ allPatches (entries 16), regionFits tun_syms d = true) ∧
      (allPatches (entries 16)).Pairwise (fun p q => compatible tun_syms p q = true) ∧
      (allPatches (runPasses tun_syms tun_passes ⟨tun_mem, entries 16⟩).table).map
          (fun d => (d.isPatched, d.patchAddress, d.patchValue)) =
        [(false, 1002, 0x24020000), (false, 0, 0x24020000),
          (true, 1002, 0x24020000), (true, 2004, 0), (false, 0, 0)] ∧
      (∀ l ∈ (runPasses tun_syms tun_passes ⟨tun_mem, entries 16⟩).table, ∀ d ∈ l.patches,
        d.isPatched = true →
          d.patchAddress < addressWords ∧
            (runPasses tun_syms tun_passes ⟨tun_mem, entries 16⟩).mem d.patchAddress =
              d.patchValue) :=
  ⟨by decide, by decide, by decide, by decide,
    applied_descriptors_hold_patchValue tun_syms tun_passes ⟨tun_mem, entries 16⟩ (by decide)
      (by decide) (by decide)⟩

/-! ## Theorems: the version ranges of the built-in lists -/

/-- The version check of the built-in list "since FRITZ!OS 07.08" as a
formula. -/
theorem versionCheck_since_0708 (sk major minor revision : Nat) :
    (∃ l, (entries sk).get? 0 = some l ∧
      (versionCheck l major minor revision = true ↔
        major > 7 ∨ (major = 7 ∧ minor ≥ 8))) := by
  refine ⟨_, rfl, ?_⟩
  simp only [versionCheck, lowerLimitAccepts, upperLimitAccepts, Bool.and_eq_true]
  split_ifs <;> simp <;> omega

/-- The version check of the built-in list "from FRITZ!OS 06.98 to FRITZ!OS
07.08" as a formula: minor 8 of major 7 is still inside. -/
theorem versionCheck_pre_0708 (sk major minor revision : Nat) :
    (∃ l, (entries sk).get? 1 = some l ∧
      (versionCheck l major minor revision = true ↔
        (major > 6 ∨ (major = 6 ∧ minor ≥ 98)) ∧ (major < 7 ∨ (major = 7 ∧ minor ≤ 8)))) := by
  refine ⟨_, rfl, ?_⟩
  simp only [versionCheck, lowerLimitAccepts, upperLimitAccepts, Bool.and_eq_true]
  split_ifs <;> simp <;> omega

/-- C21 (the code does not do what the claim says): the version ranges of the
two built-in lists overlap. The version check accepts both the list "since
FRITZ!OS 07.08" and the list "from FRITZ!OS 06.98 to FRITZ!OS 07.08" exactly for
the versions with major 7 and minor 8, whatever their revision; in particular
both are accepted for version 7.8.0. For every other version at most one of the
two is accepted. -/
theorem builtin_lists_overlap_at_7_8 (sk major minor revision : Nat) :
    ∃ l0 l1, (entries sk).get? 0 = some l0 ∧ (entries sk).get? 1 = some l1 ∧
      (versionCheck l0 major minor revision = true ∧
          versionCheck l1 major minor revision = true ↔ major = 7 ∧ minor = 8) ∧
      versionCheck l0 7 8 0 = true ∧ versionCheck l1 7 8 0 = true ∧
      versionCheck l0 7 8 revision = true ∧ versionCheck l1 7 8 revision = true := by
  obtain ⟨l0, h0, hf0⟩ := versionCheck_since_0708 sk major minor revision
  obtain ⟨l1, h1, hf1⟩ := versionCheck_pre_0708 sk major minor revision
  obtain ⟨a0, ha0, hg0⟩ := versionCheck_since_0708 sk 7 8 0
  obtain ⟨a1, ha1, hg1⟩ := versionCheck_pre_0708 sk 7 8 0
  obtain ⟨b0, hb0, hk0⟩ := versionCheck_since_0708 sk 7 8 revision
  obtain ⟨b1, hb1, hk1⟩ := versionCheck_pre_0708 sk 7 8 revision
  rw [h0] at ha0 hb0
  rw [h1] at ha1 hb1
  cases ha0
  cases ha1
  cases hb0
  cases hb1
  refine ⟨l0, l1, h0, h1, ?_, hg0.mpr (by omega), hg1.mpr (by omega), hk0.mpr (by omega),
    hk1.mpr (by omega)⟩
  rw [hf0, hf1]
  omega

end YfPatchkernel
